import Mathlib

/-!
# Edge History Sanitizer: rule compilation, matching and rule/log commands

A shallow embedding of `background.js` and of the add-form handler of
`options.js`.

* A JavaScript string is the list of its characters (`Str`). The engine
  matches UTF-16 code units; on strings without a lone surrogate the two
  views give the same verdicts, a character outside the Basic Multilingual
  Plane counting as one symbol.
* `new RegExp(source, 'i')` is embedded as a lexer and a parser for the
  fragment of the regular-expression grammar that the two source templates
  of `patternToRegex` use (`lex`, `parse`), followed by the backtracking
  matcher (`Regex.run`) and by `RegExp.test` for a pattern without the `g`
  and `y` flags. `none` stands for a thrown exception.
* The upper-case table of the engine outside ASCII is not part of the
  repository; it is the parameter `up` of `Canonicalize`, and every theorem
  holds for every table.
* The persisted store is the tuple `(rules, counters, logs)` with the storage
  defaults applied. The clock and the date functions are inputs of the
  operations that use them. In `deleteIfMatched`, whose `try` block catches
  them, the outcomes of `chrome.history.deleteUrl` and of every read and write
  of the store are inputs (`HostCalls`); in the message commands the reads and
  writes of the store succeed (`getState` is `getStateWith` with both calls
  successful).
* `deletedCount` is the integer value of a double: the field is a natural
  number and `addOne` is the addition of the engine, exact below `2 ^ 53` and
  rounded from there on. A time stamp is an integer.
-/

namespace EdgeHistorySanitizer

/-- A JavaScript string, as the list of its characters. -/
abbrev Str := List Char

/-! ## Characters -/

/-- The characters of the class `[.*+?^${}()|[\]\\]` of `escapeRegex`. -/
def isEscaped (c : Char) : Bool :=
  c = '.' || c = '*' || c = '+' || c = '?' || c = '^' || c = '$' || c = '{' || c = '}'
    || c = '(' || c = ')' || c = '|' || c = '[' || c = ']' || c = '\\'

/-- LineTerminator of the language: LF, CR, LS, PS. -/
def isLineTerminator (c : Char) : Bool :=
  c.toNat = 0x0A || c.toNat = 0x0D || c.toNat = 0x2028 || c.toNat = 0x2029

/-- The characters `String.prototype.trim` strips: WhiteSpace and LineTerminator. -/
def isTrimmed (c : Char) : Bool :=
  c.toNat = 0x09 || c.toNat = 0x0B || c.toNat = 0x0C || c.toNat = 0x20 || c.toNat = 0xA0
    || c.toNat = 0x1680 || (0x2000 ≤ c.toNat && c.toNat ≤ 0x200A) || c.toNat = 0x202F
    || c.toNat = 0x205F || c.toNat = 0x3000 || c.toNat = 0xFEFF || isLineTerminator c

/-- `String.prototype.trim`. -/
def trim (s : Str) : Str :=
  ((s.dropWhile isTrimmed).reverse.dropWhile isTrimmed).reverse

/-- Upper case of an ASCII character (`a`-`z` to `A`-`Z`, everything else fixed). -/
def asciiUpper (c : Char) : Char :=
  if 97 ≤ c.toNat ∧ c.toNat ≤ 122 then Char.ofNat (c.toNat - 32) else c

/-- Canonicalize of the regular-expression semantics with the `i` flag and without
the `u` flag: the character is upper-cased, except that a character outside ASCII
is never mapped into ASCII. `up` is the engine's upper-case table outside ASCII. -/
def Canonicalize (up : Char → Char) (ch : Char) : Char :=
  if ch.toNat < 128 then asciiUpper ch
  else if (up ch).toNat < 128 then ch else up ch

/-- Two strings are equal ignoring letter case. -/
def EqIgnoreCase (up : Char → Char) (a b : Str) : Prop :=
  a.map (Canonicalize up) = b.map (Canonicalize up)

instance (up : Char → Char) (a b : Str) : Decidable (EqIgnoreCase up a b) := by
  unfold EqIgnoreCase; infer_instance

/-! ## `escapeRegex` and the wildcard replacement -/

/-- `s.replace(/[.*+?^${}()|[\]\\]/g, '\\$&')`: a backslash is put before each
character of the class. -/
def escapeRegex (s : Str) : Str :=
  s.flatMap (fun c => if isEscaped c then ['\\', c] else [c])

/-- `.replace(/\\\*/g, '.*')`: every occurrence of backslash-star, found from left
to right, is replaced by dot-star. -/
def replaceEscapedStar : Str → Str
  | [] => []
  | [c] => [c]
  | c :: d :: rest =>
    if c = '\\' ∧ d = '*' then '.' :: '*' :: replaceEscapedStar rest
    else c :: replaceEscapedStar (d :: rest)

/-! ## Regular expressions: syntax -/

/-- Abstract syntax of the fragment of patterns that is modelled. -/
inductive Regex where
  | empty : Regex
  | char (c : Char) : Regex
  | any : Regex
  | cls (neg : Bool) (members : List Char) : Regex
  | bol : Regex
  | eol : Regex
  | seq (a b : Regex) : Regex
  | alt (a b : Regex) : Regex
  | star (a : Regex) : Regex
  | plus (a : Regex) : Regex
  | opt (a : Regex) : Regex
  deriving DecidableEq

/-- Lexical items of a pattern source. -/
inductive Token where
  | chr (c : Char) : Token
  | dot : Token
  | star : Token
  | plus : Token
  | quest : Token
  | caret : Token
  | dollar : Token
  | bar : Token
  | openGroup : Token
  | closeGroup : Token
  | cls (neg : Bool) (members : List Char) : Token
  deriving DecidableEq

/-- Mode of the lexer: in a term position, after a backslash, after `(`, after
`(?`, inside a character class, after a backslash inside a character class. -/
inductive LexMode where
  | normal : LexMode
  | escape : LexMode
  | paren : LexMode
  | parenQuest : LexMode
  | cls (neg : Bool) (fresh : Bool) (members : List Char) : LexMode
  | clsEscape (neg : Bool) (members : List Char) : LexMode
  deriving DecidableEq

/-- State of the lexer: the mode and the tokens read so far. -/
structure LexState where
  mode : LexMode
  out : List Token
  deriving DecidableEq

/-- A character that may follow a backslash as an identity escape in the modelled
fragment: a syntax character or the slash. -/
def isIdentityEscape (c : Char) : Bool := isEscaped c || c = '/'

/-- One character of the pattern source. `none` is a SyntaxError, or a construct
outside the modelled fragment (capturing groups, look-around, braced quantifiers,
class ranges, character-class escapes). -/
def lexStep (st : LexState) (c : Char) : Option LexState :=
  match st.mode with
  | .normal =>
    if c = '\\' then some { st with mode := .escape }
    else if c = '(' then some { st with mode := .paren }
    else if c = '[' then some { st with mode := .cls false true [] }
    else if c = ')' then some { st with out := st.out ++ [.closeGroup] }
    else if c = '.' then some { st with out := st.out ++ [.dot] }
    else if c = '*' then some { st with out := st.out ++ [.star] }
    else if c = '+' then some { st with out := st.out ++ [.plus] }
    else if c = '?' then some { st with out := st.out ++ [.quest] }
    else if c = '^' then some { st with out := st.out ++ [.caret] }
    else if c = '$' then some { st with out := st.out ++ [.dollar] }
    else if c = '|' then some { st with out := st.out ++ [.bar] }
    else if c = '{' then none
    else some { st with out := st.out ++ [.chr c] }
  | .escape =>
    if isIdentityEscape c then some { mode := .normal, out := st.out ++ [.chr c] }
    else none
  | .paren => if c = '?' then some { st with mode := .parenQuest } else none
  | .parenQuest =>
    if c = ':' then some { mode := .normal, out := st.out ++ [.openGroup] } else none
  | .cls neg fresh ms =>
    if c = '^' ∧ fresh = true ∧ neg = false then some { st with mode := .cls true false ms }
    else if c = ']' then some { mode := .normal, out := st.out ++ [.cls neg ms] }
    else if c = '\\' then some { st with mode := .clsEscape neg ms }
    else if c = '-' then none
    else some { st with mode := .cls neg false (ms ++ [c]) }
  | .clsEscape neg ms =>
    if isIdentityEscape c || c = '-' then some { st with mode := .cls neg false (ms ++ [c]) }
    else none

/-- The lexer run over a source from a given state. -/
def lexFrom : LexState → Str → Option LexState
  | st, [] => some st
  | st, c :: rest => (lexStep st c).bind (fun st' => lexFrom st' rest)

/-- The tokens of a pattern source; the source has to end in a term position. -/
def lex (src : Str) : Option (List Token) :=
  (lexFrom { mode := .normal, out := [] } src).bind
    (fun st => if st.mode = .normal then some st.out else none)

/-- One level of the parser: the alternatives that are complete, the terms of the
current alternative (latest first) and whether the latest term may take a
quantifier. -/
structure Frame where
  alts : List Regex
  terms : List Regex
  quantifiable : Bool
  deriving DecidableEq

/-- The sequence of a list of terms. -/
def mkSeq : List Regex → Regex
  | [] => .empty
  | r :: rs => .seq r (mkSeq rs)

/-- The disjunction of a non-empty list of alternatives. -/
def mkAlt : List Regex → Regex
  | [] => .empty
  | [r] => r
  | r :: rs => .alt r (mkAlt rs)

/-- The pattern of a finished level. -/
def Frame.close (f : Frame) : Regex :=
  mkAlt (f.alts ++ [mkSeq f.terms.reverse])

/-- Apply a quantifier to the latest term of the current level. -/
def quantify (q : Regex → Regex) : List Frame → Option (List Frame)
  | f :: fs =>
    match f.quantifiable, f.terms with
    | true, t :: ts => some ({ f with terms := q t :: ts, quantifiable := false } :: fs)
    | _, _ => none
  | [] => none

/-- Add a term to the current level. -/
def pushTerm (t : Regex) (quantifiable : Bool) : List Frame → Option (List Frame)
  | f :: fs => some ({ f with terms := t :: f.terms, quantifiable := quantifiable } :: fs)
  | [] => none

/-- One token of the pattern, on the stack of open levels (innermost first). -/
def parseStep (stack : List Frame) (t : Token) : Option (List Frame) :=
  match t with
  | .chr c => pushTerm (.char c) true stack
  | .dot => pushTerm .any true stack
  | .cls neg ms => pushTerm (.cls neg ms) true stack
  | .caret => pushTerm .bol false stack
  | .dollar => pushTerm .eol false stack
  | .star => quantify .star stack
  | .plus => quantify .plus stack
  | .quest => quantify .opt stack
  | .bar =>
    match stack with
    | f :: fs =>
      some ({ alts := f.alts ++ [mkSeq f.terms.reverse], terms := [], quantifiable := false }
        :: fs)
    | [] => none
  | .openGroup => some ({ alts := [], terms := [], quantifiable := false } :: stack)
  | .closeGroup =>
    match stack with
    | f :: g :: fs => pushTerm f.close true (g :: fs)
    | _ => none

/-- The parser run over the tokens from a given stack. -/
def parseFrom : List Frame → List Token → Option (List Frame)
  | stack, [] => some stack
  | stack, t :: rest => (parseStep stack t).bind (fun stack' => parseFrom stack' rest)

/-- The pattern of a token list; every group has to be closed. -/
def parse (ts : List Token) : Option Regex :=
  (parseFrom [{ alts := [], terms := [], quantifiable := false }] ts).bind
    (fun stack => match stack with
      | [f] => some f.close
      | _ => none)

/-- The constructor `new RegExp(source, 'i')`: `none` when it throws. -/
def RegExp.new (src : Str) : Option Regex := (lex src).bind parse

/-! ## Regular expressions: matching -/

/-- A position of the matcher in the input: the index and the text from there on. -/
abbrev Pos := Nat × Str

/-- The greedy repetition of a matcher `m`: an iteration that consumes nothing is
rejected, so at most `fuel = remaining length` iterations happen. -/
def starLoop (m : Pos → List Pos) : Nat → Pos → List Pos
  | 0, st => [st]
  | fuel + 1, st =>
    ((m st).filter (fun st' => st'.2.length < st.2.length)).flatMap (starLoop m fuel) ++ [st]

/-- The backtracking matcher: all positions at which a match of the pattern that
starts at the given position can end, in the order in which they are tried.
Characters are compared through `Canonicalize`; the dot matches every character
but a line terminator, which is no case variant of any other character. -/
def Regex.run (up : Char → Char) : Regex → Pos → List Pos
  | .empty, st => [st]
  | .char c, st =>
    match st.2 with
    | [] => []
    | d :: rest => if Canonicalize up d = Canonicalize up c then [(st.1 + 1, rest)] else []
  | .any, st =>
    match st.2 with
    | [] => []
    | d :: rest => if isLineTerminator d then [] else [(st.1 + 1, rest)]
  | .cls neg ms, st =>
    match st.2 with
    | [] => []
    | d :: rest =>
      if (ms.any (fun a => Canonicalize up a = Canonicalize up d)) != neg
      then [(st.1 + 1, rest)] else []
  | .bol, st => if st.1 = 0 then [st] else []
  | .eol, st => if st.2 = [] then [st] else []
  | .seq a b, st => (Regex.run up a st).flatMap (Regex.run up b)
  | .alt a b, st => Regex.run up a st ++ Regex.run up b st
  | .star a, st => starLoop (Regex.run up a) st.2.length st
  | .plus a, st =>
    (Regex.run up a st).flatMap (fun st' => starLoop (Regex.run up a) st'.2.length st')
  | .opt a, st => Regex.run up a st ++ [st]

/-- The method `regex.test(url)` of a pattern without the `g` and `y` flags: a match
is looked for at every start index. -/
def RegExp.test (up : Char → Char) (re : Regex) (url : Str) : Bool :=
  (List.range (url.length + 1)).any (fun i => !(Regex.run up re (i, url.drop i)).isEmpty)

/-! ## Rules and `patternToRegex` -/

/-- A persisted rule. An absent `pattern` or `enabled` field is `none`. -/
structure Rule where
  pattern : Option Str
  type : String
  enabled : Option Bool
  deriving DecidableEq

/-- The source of the domain template before the interpolated pattern. -/
def domainHead : Str := "^https?:\\/\\/(?:[^\\/]*\\.)?".toList

/-- The source of the domain template after the interpolated pattern. -/
def domainTail : Str := "(?:\\/|$)".toList

/-- The function `patternToRegex`: `none` when `new RegExp` throws, `some none` for
the result `null`, `some (some re)` for a compiled pattern. -/
def patternToRegex (rule : Rule) : Option (Option Regex) :=
  let pattern := trim (rule.pattern.getD [])
  if pattern = [] then some none
  else if rule.type = "domain" then
    let escaped := replaceEscapedStar (escapeRegex pattern)
    (RegExp.new (domainHead ++ escaped ++ domainTail)).map some
  else (RegExp.new (escapeRegex pattern)).map some

/-! ## The persisted state and `getState` -/

/-- The counters record. `deletedCount` is the integer value of the double that the
store holds; the code changes it through `addOne` and by the reset to zero only. -/
structure Counters where
  deletedCount : Nat
  lastReset : Str
  deriving DecidableEq

/-- One audit record of a performed deletion; `ts` is in epoch milliseconds. -/
structure LogEntry where
  url : Str
  source : String
  ts : Int
  deriving DecidableEq

/-- The persisted state `(rules, counters, logs)`, defaults applied. -/
structure State where
  rules : List Rule
  counters : Counters
  logs : List LogEntry
  deriving DecidableEq

/-- A decimal digit, the class `\d`. -/
def isDigit (c : Char) : Bool := 48 ≤ c.toNat && c.toNat ≤ 57

/-- The pattern `\d{4}-\d{2}-\d{2}T` at the start of a string. -/
def isoDateAt : Str → Bool
  | y1 :: y2 :: y3 :: y4 :: d1 :: m1 :: m2 :: d2 :: t1 :: t2 :: t :: _ =>
    isDigit y1 && isDigit y2 && isDigit y3 && isDigit y4 && d1 = '-' && isDigit m1
      && isDigit m2 && d2 = '-' && isDigit t1 && isDigit t2 && t = 'T'
  | _ => false

/-- The function `isISODateString` on a string: the pattern occurs somewhere. -/
def isISODateString (s : Str) : Bool := s.tails.any isoDateAt

/-- The function `getState`: the state it returns and the store it leaves behind.
`toISOString s` is `new Date(s).toISOString()`, `none` when that throws; a
time stamp in `lastReset` is replaced by its first ten characters and written
back. -/
def getState (toISOString : Str → Option Str) (store : State) : State × State :=
  if isISODateString store.counters.lastReset then
    match toISOString store.counters.lastReset with
    | some iso =>
      let counters := { store.counters with lastReset := iso.take 10 }
      ({ store with counters := counters }, { store with counters := counters })
    | none => (store, store)
  else (store, store)

/-! ## `compileRulesFromStorage` and `urlMatches` -/

/-- An element of `compiledRules`. -/
structure CompiledRule where
  rule : Rule
  regex : Regex
  deriving DecidableEq

/-- The pipeline of `compileRulesFromStorage` on the rule list: the rules whose
`enabled` is not `false`, each paired with its pattern, without those whose
pattern is `null`. `none` when `patternToRegex` throws for one of them. -/
def compileRules (rules : List Rule) : Option (List CompiledRule) :=
  ((rules.filter (fun r => r.enabled != some false)).mapM
      (fun r => (patternToRegex r).map (fun re => (r, re)))).map
    (fun xs => xs.filterMap (fun x => x.2.map (fun re => { rule := x.1, regex := re })))

/-- The service worker: the store and the variable `compiledRules`. -/
structure World where
  store : State
  compiledRules : List CompiledRule
  deriving DecidableEq

/-- The function `compileRulesFromStorage`; `none` when it throws (the variable is
then not assigned). -/
def compileRulesFromStorage (toISOString : Str → Option Str) (w : World) : Option World :=
  let r := getState toISOString w.store
  (compileRules r.1.rules).map (fun cs => { store := r.2, compiledRules := cs })

/-- The function `urlMatches`. -/
def urlMatches (up : Char → Char) (compiledRules : List CompiledRule) (url : Str) : Bool :=
  compiledRules.any (fun c => RegExp.test up c.regex url)

/-! ## `deleteIfMatched` -/

/-- The exception of a rejected host call. -/
inductive Failure where
  | deleteUrl : Failure
  | storageGet : Failure
  | storageSet : Failure
  deriving DecidableEq

/-- The outcomes of the host calls of one run of `deleteIfMatched`, in the order of
the calls: `chrome.history.deleteUrl`, `chrome.storage.sync.get` in `getState`, the
`chrome.storage.sync.set` in `getState`, the final `chrome.storage.sync.set`. -/
structure HostCalls where
  deleteUrlOk : Bool
  getOk : Bool
  normalizeSetOk : Bool
  setOk : Bool
  deriving DecidableEq

/-- The function `getState` on a store whose calls can fail: the store it leaves
behind and the state it returns, or the exception of a rejected `get`. A rejected
`set` is swallowed by the empty `catch`; the returned counters carry the date all
the same, since the assignment precedes the call. -/
def getStateWith (toISOString : Str → Option Str) (getOk setOk : Bool) (store : State) :
    State × Except Failure State :=
  if getOk then
    if isISODateString store.counters.lastReset then
      match toISOString store.counters.lastReset with
      | some iso =>
        let counters := { store.counters with lastReset := iso.take 10 }
        (if setOk then { store with counters := counters } else store,
          .ok { store with counters := counters })
      | none => (store, .ok store)
    else (store, .ok store)
  else (store, .error .storageGet)

/-- The nearest double to a natural number, ties to the even significand: exact
below `2 ^ 53`, a multiple of the unit in the last place from there on. -/
def roundToDouble (m : Nat) : Nat :=
  if m < 2 ^ 53 then m
  else
    let ulp := 2 ^ (Nat.log2 m - 52)
    let q := m / ulp
    let r := m % ulp
    if 2 * r < ulp then q * ulp
    else if ulp < 2 * r then (q + 1) * ulp
    else if q % 2 = 0 then q * ulp else (q + 1) * ulp

/-- The value of `n + 1` for a count `n` held in a double (`deletedCount += 1`). -/
def addOne (n : Nat) : Nat := roundToDouble (n + 1)

/-- What one run of `deleteIfMatched` leaves behind: the store, the URLs passed to
`chrome.history.deleteUrl`, the number of `console.error` lines and the exception
that leaves the function, if any. -/
structure Outcome where
  store : State
  deleteCalls : List Str
  errorsLogged : Nat
  uncaught : Option Failure
  deriving DecidableEq

/-- The body of the `try` block of `deleteIfMatched`: the store it leaves behind and
the exception that ends it, if any. -/
def deleteAndRecord (toISOString : Str → Option Str) (host : HostCalls) (now : Int)
    (url : Str) (source : String) (store : State) : State × Except Failure Unit :=
  if host.deleteUrlOk then
    match getStateWith toISOString host.getOk host.normalizeSetOk store with
    | (store', .ok state) =>
      let counters := { state.counters with deletedCount := addOne state.counters.deletedCount }
      let logs := state.logs ++ [{ url := url, source := source, ts := now }]
      if host.setOk then ({ store' with counters := counters, logs := logs }, .ok ())
      else (store', .error .storageSet)
    | (store', .error e) => (store', .error e)
  else (store, .error .deleteUrl)

/-- The function `deleteIfMatched`. `host` gives the outcomes of the host calls,
`now` is `Date.now()`. The `catch` logs the exception of the `try` block and
throws nothing. -/
def deleteIfMatched (up : Char → Char) (toISOString : Str → Option Str) (host : HostCalls)
    (now : Int) (compiledRules : List CompiledRule) (url : Str) (source : String)
    (store : State) : Outcome :=
  if url = [] ∨ compiledRules.length = 0 then
    { store := store, deleteCalls := [], errorsLogged := 0, uncaught := none }
  else if urlMatches up compiledRules url then
    match deleteAndRecord toISOString host now url source store with
    | (store', .ok _) =>
      { store := store', deleteCalls := [url], errorsLogged := 0, uncaught := none }
    | (store', .error _) =>
      { store := store', deleteCalls := [url], errorsLogged := 1, uncaught := none }
  else { store := store, deleteCalls := [], errorsLogged := 0, uncaught := none }

/-! ## The message commands -/

/-- The value of `msg.index`: a number with an integer value, or anything else
(no number, a fraction, NaN, an infinity). -/
inductive Index where
  | int (i : Int) : Index
  | other : Index
  deriving DecidableEq

/-- A message of the command interface. -/
inductive Message where
  | getState : Message
  | addRule (pattern : Option Str) (matchType : String) : Message
  | removeRule (index : Index) : Message
  | toggleRule (index : Index) : Message
  | resetCounter : Message
  | clearLogs : Message
  | exportState : Message
  deriving DecidableEq

/-- The argument of `sendResponse`. -/
inductive Response where
  | state (state : State) (last30Count : Nat) : Response
  | ok : Response
  | exported (state : State) : Response
  deriving DecidableEq

/-- The guard `typeof msg.index === 'number' && rules[msg.index]`: the position in
the list that the index names, if any. -/
def ruleAt (index : Index) (rules : List Rule) : Option Nat :=
  match index with
  | .int i => if 0 ≤ i ∧ i.toNat < rules.length then some i.toNat else none
  | .other => none

/-- The assignment `rules[i].enabled = !rules[i].enabled`: an absent field is falsy. -/
def toggleEnabled (r : Rule) : Rule :=
  { r with enabled := some (!(r.enabled.getD false)) }

/-- The rule list after the command, for the four rule and state commands that
change or keep it. -/
def rulesAfter (msg : Message) (rules : List Rule) : List Rule :=
  match msg with
  | .addRule pattern matchType =>
    rules ++ [{ pattern := pattern,
                type := if matchType = "domain" then "domain" else "keyword",
                enabled := some true }]
  | .removeRule index =>
    match ruleAt index rules with
    | some i => rules.eraseIdx i
    | none => rules
  | .toggleRule index =>
    match ruleAt index rules with
    | some i => rules.modify toggleEnabled i
    | none => rules
  | _ => rules

/-- The clock and the date functions of the engine that the commands read: the
value of `Date.now()`, of `new Date().toISOString()` and the function
`s => new Date(s).toISOString()`. -/
structure Clock where
  now : Int
  nowISO : Str
  toISOString : Str → Option Str

/-- The thirty-day window in milliseconds. -/
def window30 : Int := 30 * 24 * 60 * 60 * 1000

/-- The value `count30` of the `getState` command. -/
def last30Count (now : Int) (logs : List LogEntry) : Nat :=
  (logs.filter (fun e => decide (e.ts ≥ now - window30))).length

/-- The listener of `chrome.runtime.onMessage`: the world after the command and
the response, `none` when the handler throws before it responds. -/
def onMessage (clock : Clock) (msg : Message) (w : World) : World × Option Response :=
  match msg with
  | .getState =>
    let r := getState clock.toISOString w.store
    ({ w with store := r.2 }, some (.state r.1 (last30Count clock.now r.1.logs)))
  | .addRule _ _ =>
    let r := getState clock.toISOString w.store
    let w' : World := { w with store := { r.2 with rules := rulesAfter msg r.1.rules } }
    match compileRulesFromStorage clock.toISOString w' with
    | some w'' => (w'', some .ok)
    | none => (w', none)
  | .removeRule index | .toggleRule index =>
    let r := getState clock.toISOString w.store
    match ruleAt index r.1.rules with
    | some _ =>
      let w' : World := { w with store := { r.2 with rules := rulesAfter msg r.1.rules } }
      match compileRulesFromStorage clock.toISOString w' with
      | some w'' => (w'', some .ok)
      | none => (w', none)
    | none => ({ w with store := r.2 }, some .ok)
  | .resetCounter =>
    let r := getState clock.toISOString w.store
    let counters := { r.1.counters with deletedCount := 0, lastReset := clock.nowISO.take 10 }
    ({ w with store := { r.2 with counters := counters } }, some .ok)
  | .clearLogs => ({ w with store := { w.store with logs := [] } }, some .ok)
  | .exportState =>
    let r := getState clock.toISOString w.store
    ({ w with store := r.2 }, some (.exported r.1))

/-- The submit handler of the add form in `options.js`: the input is trimmed, an
empty input sends nothing, otherwise the `addRule` message is sent. -/
def addFormSubmit (clock : Clock) (value : Str) (matchType : String) (w : World) :
    World × Option Response :=
  let pattern := trim value
  if pattern = [] then (w, none)
  else onMessage clock (.addRule (some pattern) matchType) w

/-- Whether a rule takes part in matching: `enabled !== false`. -/
def isEnabled (r : Rule) : Bool := r.enabled != some false

/-! ## Auxiliary definitions of the verification -/

/-- The source text of one character of the pattern in a domain rule. -/
def domainPiece (c : Char) : Str :=
  if c = '*' then ['.', '*'] else if isEscaped c then ['\\', c] else [c]

/-- The tokens of one character of the pattern in a domain rule. -/
def domainToken (c : Char) : List Token :=
  if c = '*' then [.dot, .star] else [.chr c]

/-- The term of one character of the pattern in a domain rule. -/
def domainTerm (c : Char) : Regex :=
  if c = '*' then .star .any else .char c

/-- The terms of the domain template before the interpolated pattern. -/
def domainHeadTerms : List Regex :=
  [.bol, .char 'h', .char 't', .char 't', .char 'p', .opt (.char 's'), .char ':', .char '/',
    .char '/', .opt (.seq (.star (.cls true ['/'])) (.seq (.char '.') .empty))]

/-- The term of the domain template after the interpolated pattern. -/
def domainTailTerm : Regex := .alt (.seq (.char '/') .empty) (.seq .eol .empty)

/-- The matcher went from `x` to `y` by consuming exactly the text `a`. -/
def Span (x y : Pos) (a : Str) : Prop := x.2 = a ++ y.2 ∧ y.1 = x.1 + a.length

/-- A pattern that consumes exactly one character, which has to satisfy `P`. -/
def CharAtom (up : Char → Char) (r : Regex) (P : Char → Prop) : Prop :=
  ∀ x y : Pos, y ∈ Regex.run up r x ↔ ∃ d, Span x y [d] ∧ P d

/-- The text `a` is an instance of the pattern text `p` of a domain rule: a `*`
stands for any text without a line terminator, every other character for itself
up to letter case. -/
def GlobMatch (up : Char → Char) : Str → Str → Prop
  | [], a => a = []
  | c :: p, a =>
    if c = '*' then
      ∃ t rest, a = t ++ rest ∧ (∀ d ∈ t, isLineTerminator d = false) ∧ GlobMatch up p rest
    else ∃ d rest, a = d :: rest ∧ Canonicalize up d = Canonicalize up c ∧ GlobMatch up p rest

/-- The text is `http://` or `https://`, ignoring letter case. -/
def IsScheme (up : Char → Char) (s : Str) : Prop :=
  EqIgnoreCase up s "http://".toList ∨ EqIgnoreCase up s "https://".toList

/-- The optional part before the pattern: nothing, or a text that contains no `/`
and ends in `.`. -/
def IsLabels (pre : Str) : Prop :=
  pre = [] ∨ ('/' ∉ pre ∧ ∃ q, pre = q ++ ['.'])

/-- What follows the pattern: the end of the string, or a `/` followed by anything. -/
def IsPathOrEnd (tail : Str) : Prop :=
  tail = [] ∨ ∃ t, tail = '/' :: t

/-- The shape of a URL that a domain rule accepts: scheme, optional labels, a text
`mid` that satisfies `Mid`, then the end or a path. -/
def DomainForm (up : Char → Char) (Mid : Str → Prop) (u : Str) : Prop :=
  ∃ scheme pre mid tail, u = scheme ++ pre ++ mid ++ tail ∧ IsScheme up scheme ∧ IsLabels pre
    ∧ Mid mid ∧ IsPathOrEnd tail

/-- The matcher of a rule accepts the URL: `patternToRegex(rule)` is a pattern and
its `test` on the URL is true. -/
def accepts (up : Char → Char) (rule : Rule) (url : Str) : Bool :=
  match patternToRegex rule with
  | some (some re) => RegExp.test up re url
  | _ => false

/-- The trimmed pattern of a rule. -/
def trimmedPattern (rule : Rule) : Str := trim (rule.pattern.getD [])

/-- The text of a URL after `http://` or `https://` (letter case ignored). -/
def afterScheme (up : Char → Char) (u : Str) : Option Str :=
  if EqIgnoreCase up (u.take 7) "http://".toList then some (u.drop 7)
  else if EqIgnoreCase up (u.take 8) "https://".toList then some (u.drop 8)
  else none

/-- The hostname of a URL: the text after the scheme up to the first `/`, `?`, `#`
or the end of the string. -/
def hostname (up : Char → Char) (u : Str) : Option Str :=
  (afterScheme up u).map (fun r => r.takeWhile (fun c => c != '/' && c != '?' && c != '#'))

/-- The authority of a URL: the text after the scheme up to the first `/` or the
end of the string. -/
def authority (up : Char → Char) (u : Str) : Option Str :=
  (afterScheme up u).map (fun r => r.takeWhile (fun c => c != '/'))

/-- The host is the pattern or ends with `.` followed by the pattern, ignoring
letter case. -/
def HostUnder (up : Char → Char) (host p : Str) : Prop :=
  EqIgnoreCase up host p ∨ ('.' :: p).map (Canonicalize up) <:+ host.map (Canonicalize up)

instance (up : Char → Char) (host p : Str) : Decidable (HostUnder up host p) := by
  unfold HostUnder; infer_instance

/-- The text `w` is `s0 t1 s1 ... tk sk` for the segments `s0, ..., sk` taken
literally up to letter case and gaps `t1, ..., tk` that satisfy `Gap`. -/
def SegForm (up : Char → Char) (Gap : Str → Prop) : List Str → Str → Prop
  | [], _ => False
  | [s], w => EqIgnoreCase up w s
  | s :: s' :: rest, w =>
    ∃ a t w', w = a ++ t ++ w' ∧ EqIgnoreCase up a s ∧ Gap t ∧ SegForm up Gap (s' :: rest) w'

/-- The text contains no line terminator. -/
def NoLineTerminator (t : Str) : Prop := ∀ d ∈ t, isLineTerminator d = false

/-- The domain rule with the given pattern. -/
def domainRule (p : String) : Rule :=
  { pattern := some p.toList, type := "domain", enabled := some true }

/-- The string consists of ASCII characters. -/
def isAsciiStr (s : Str) : Bool := s.all (fun c => decide (c.toNat < 128))

/-- The pattern mentions ASCII characters only. -/
def Regex.isAscii : Regex → Bool
  | .empty => true
  | .char c => decide (c.toNat < 128)
  | .any => true
  | .cls _ ms => isAsciiStr ms
  | .bol => true
  | .eol => true
  | .seq a b => a.isAscii && b.isAscii
  | .alt a b => a.isAscii && b.isAscii
  | .star a => a.isAscii
  | .plus a => a.isAscii
  | .opt a => a.isAscii

/-- A `?` or a `#` occurs in the URL before the first `/` that follows the scheme. -/
def queryBeforePath (up : Char → Char) (u : Str) : Bool :=
  match authority up u with
  | some a => a.any (fun c => c = '?' || c = '#')
  | none => false

/-- The pattern that `patternToRegex` returns for a rule, `none` for `null`. -/
def compiledPattern (rule : Rule) : Option Regex :=
  if trimmedPattern rule = [] then none
  else if rule.type = "domain" then
    some (mkSeq (domainHeadTerms ++ (trimmedPattern rule).map domainTerm ++ [domainTailTerm]))
  else some (mkSeq ((trimmedPattern rule).map Regex.char))

/-- The rule takes part in the compiled set: it is not disabled and its trimmed
pattern is not empty. -/
def isActive (r : Rule) : Bool := isEnabled r && decide (trimmedPattern r ≠ [])

/-- A world whose store holds the given rules and nothing else. -/
def worldOf (rules : List Rule) : World :=
  { store := { rules := rules, counters := { deletedCount := 0, lastReset := "2024-01-01".toList },
               logs := [] },
    compiledRules := [] }

/-- The clock used in the concrete instances. -/
def clockAt (now : Int) : Clock :=
  { now := now, nowISO := "2024-01-01T00:00:00.000Z".toList, toISOString := fun _ => none }

/-- The rule that the `addRule` command appends. -/
def addedRule (pattern : Option Str) (matchType : String) : Rule :=
  { pattern := pattern, type := if matchType = "domain" then "domain" else "keyword",
    enabled := some true }

/-- The compiled set of the single rule `test.com`. -/
def testComCompiled : List CompiledRule :=
  [{ rule := domainRule "test.com",
     regex := mkSeq (domainHeadTerms ++ "test.com".toList.map domainTerm ++ [domainTailTerm]) }]

/-- A rule `test.com` without an `enabled` field. -/
def legacyRule : Rule := { pattern := some "test.com".toList, type := "domain", enabled := none }

/-- A log entry with the given time stamp. -/
def entryAt (ts : Int) : LogEntry :=
  { url := "https://sub.test.com/".toList, source := "history.onVisited", ts := ts }

/-! # Theorems -/

/-! ## Characters: facts -/

theorem toNat_ofNat_small (n : Nat) (h : n < 0xd800) : (Char.ofNat n).toNat = n := by
  have hv : n.isValidChar := Or.inl h
  unfold Char.ofNat
  rw [dif_pos hv]
  simp [Char.ofNatAux, Char.toNat, UInt32.toNat]

theorem toNat_inj {a b : Char} (h : a.toNat = b.toNat) : a = b := by
  have := congrArg Char.ofNat h
  simpa using this

theorem asciiUpper_toNat (c : Char) :
    (asciiUpper c).toNat = if 97 ≤ c.toNat ∧ c.toNat ≤ 122 then c.toNat - 32 else c.toNat := by
  unfold asciiUpper
  split
  · rw [toNat_ofNat_small]; omega
  · rfl

/-- A character that is no letter of ASCII and lies in ASCII is matched, ignoring
case, by itself only. -/
theorem canonicalize_eq_fixed (up : Char → Char) (a d : Char) (ha : a.toNat < 65) :
    Canonicalize up d = Canonicalize up a ↔ d = a := by
  have hA : Canonicalize up a = a := by
    unfold Canonicalize
    rw [if_pos (by omega)]
    apply toNat_inj
    rw [asciiUpper_toNat, if_neg (by omega)]
  rw [hA]
  constructor
  · intro h
    have h' := congrArg Char.toNat h
    unfold Canonicalize at h'
    split at h'
    · rw [asciiUpper_toNat] at h'
      split at h'
      · omega
      · exact toNat_inj h'
    · split at h'
      · exact toNat_inj h'
      · omega
  · intro h; rw [h, hA]

theorem canon_slash (up : Char → Char) (d : Char) :
    Canonicalize up d = Canonicalize up '/' ↔ d = '/' :=
  canonicalize_eq_fixed up '/' d (by decide)

theorem canon_dot (up : Char → Char) (d : Char) :
    Canonicalize up d = Canonicalize up '.' ↔ d = '.' :=
  canonicalize_eq_fixed up '.' d (by decide)

/-! ## The source that `patternToRegex` builds -/

theorem replaceEscapedStar_cons (c : Char) (rest : Str)
    (h : c ≠ '\\' ∨ rest.head? ≠ some '*') :
    replaceEscapedStar (c :: rest) = c :: replaceEscapedStar rest := by
  cases rest with
  | nil => simp [replaceEscapedStar]
  | cons d rest =>
    rw [replaceEscapedStar]
    rw [if_neg]
    rintro ⟨h1, h2⟩
    rcases h with h | h
    · exact h h1
    · simp [h2] at h

theorem escapeRegex_cons (c : Char) (p : Str) :
    escapeRegex (c :: p) = (if isEscaped c then ['\\', c] else [c]) ++ escapeRegex p := by
  simp [escapeRegex]

theorem escapeRegex_head (p : Str) : (escapeRegex p).head? ≠ some '*' := by
  cases p with
  | nil => simp [escapeRegex]
  | cons c p =>
    rw [escapeRegex_cons]
    by_cases h : isEscaped c
    · simp [h]
    · have : c ≠ '*' := by
        rintro rfl
        exact h (by decide)
      simp [h, this]

theorem replaceEscapedStar_escapeRegex (p : Str) :
    replaceEscapedStar (escapeRegex p) = p.flatMap domainPiece := by
  induction p with
  | nil => simp [escapeRegex, replaceEscapedStar]
  | cons c p ih =>
    rw [escapeRegex_cons, List.flatMap_cons, ← ih]
    by_cases hs : c = '*'
    · subst hs
      have : isEscaped '*' = true := by decide
      simp [this, domainPiece, replaceEscapedStar]
    · by_cases h : isEscaped c
      · simp only [h, if_true, domainPiece, hs, if_false, List.cons_append, List.nil_append]
        rw [replaceEscapedStar_cons _ _ (Or.inr (by simp [hs]))]
        rw [replaceEscapedStar_cons _ _ (Or.inr (escapeRegex_head p))]
      · have hb : c ≠ '\\' := by
          rintro rfl
          exact h (by decide)
        have h' : isEscaped c = false := by simpa using h
        simp only [h', domainPiece, hs, if_false, Bool.false_eq_true, List.cons_append,
          List.nil_append]
        rw [replaceEscapedStar_cons _ _ (Or.inl hb)]

/-! ## Lexing and parsing the two templates -/

theorem lexFrom_append (st : LexState) (a b : Str) :
    lexFrom st (a ++ b) = (lexFrom st a).bind (fun st' => lexFrom st' b) := by
  induction a generalizing st with
  | nil => simp [lexFrom]
  | cons c a ih =>
    simp only [List.cons_append, lexFrom]
    cases lexStep st c with
    | none => simp
    | some st' => simpa using ih st'

theorem parseFrom_append (stack : List Frame) (a b : List Token) :
    parseFrom stack (a ++ b) = (parseFrom stack a).bind (fun s => parseFrom s b) := by
  induction a generalizing stack with
  | nil => simp [parseFrom]
  | cons c a ih =>
    simp only [List.cons_append, parseFrom]
    cases parseStep stack c with
    | none => simp
    | some st' => simpa using ih st'

theorem not_isEscaped {c : Char} (h : isEscaped c = false) :
    c ≠ '.' ∧ c ≠ '*' ∧ c ≠ '+' ∧ c ≠ '?' ∧ c ≠ '^' ∧ c ≠ '$' ∧ c ≠ '{' ∧ c ≠ '}' ∧ c ≠ '('
      ∧ c ≠ ')' ∧ c ≠ '|' ∧ c ≠ '[' ∧ c ≠ ']' ∧ c ≠ '\\' := by
  simpa [isEscaped, and_assoc] using h

theorem lexFrom_literal (out : List Token) (c : Char) :
    lexFrom { mode := .normal, out := out } (if isEscaped c then ['\\', c] else [c])
      = some { mode := .normal, out := out ++ [.chr c] } := by
  cases h : isEscaped c with
  | true =>
    have h2 : isIdentityEscape c = true := by simp [isIdentityEscape, h]
    simp [lexFrom, lexStep, h2]
  | false =>
    obtain ⟨h1, h2, h3, h4, h5, h6, h7, h8, h9, h10, h11, h12, h13, h14⟩ := not_isEscaped h
    simp [lexFrom, lexStep, h1, h2, h3, h4, h5, h6, h7, h9, h10, h11, h12, h14]

theorem lexFrom_domainPiece (out : List Token) (c : Char) :
    lexFrom { mode := .normal, out := out } (domainPiece c)
      = some { mode := .normal, out := out ++ domainToken c } := by
  by_cases hs : c = '*'
  · subst hs
    simp [domainPiece, domainToken, lexFrom, lexStep]
  · have := lexFrom_literal out c
    simpa [domainPiece, domainToken, hs] using this

theorem lexFrom_escapeRegex (out : List Token) (p : Str) :
    lexFrom { mode := .normal, out := out } (escapeRegex p)
      = some { mode := .normal, out := out ++ p.map Token.chr } := by
  induction p generalizing out with
  | nil => simp [escapeRegex, lexFrom]
  | cons c p ih =>
    rw [escapeRegex_cons, lexFrom_append, lexFrom_literal]
    simp [ih]

theorem lexFrom_domainPieces (out : List Token) (p : Str) :
    lexFrom { mode := .normal, out := out } (p.flatMap domainPiece)
      = some { mode := .normal, out := out ++ p.flatMap domainToken } := by
  induction p generalizing out with
  | nil => simp [lexFrom]
  | cons c p ih =>
    rw [List.flatMap_cons, lexFrom_append, lexFrom_domainPiece]
    simp [ih]

theorem parseFrom_literals (f : Frame) (fs : List Frame) (p : Str) :
    ∃ q, parseFrom (f :: fs) (p.map Token.chr)
      = some ({ f with terms := (p.map Regex.char).reverse ++ f.terms, quantifiable := q }
          :: fs) := by
  induction p generalizing f with
  | nil => exact ⟨f.quantifiable, by simp [parseFrom]⟩
  | cons c p ih =>
    obtain ⟨q, hq⟩ := ih { f with terms := .char c :: f.terms, quantifiable := true }
    exact ⟨q, by simp [parseFrom, parseStep, pushTerm, hq]⟩

theorem parseFrom_domainTokens (f : Frame) (fs : List Frame) (p : Str) :
    ∃ q, parseFrom (f :: fs) (p.flatMap domainToken)
      = some ({ f with terms := (p.map domainTerm).reverse ++ f.terms, quantifiable := q }
          :: fs) := by
  induction p generalizing f with
  | nil => exact ⟨f.quantifiable, by simp [parseFrom]⟩
  | cons c p ih =>
    by_cases hs : c = '*'
    · subst hs
      obtain ⟨q, hq⟩ := ih { f with terms := .star .any :: f.terms, quantifiable := false }
      refine ⟨q, ?_⟩
      have h1 : parseFrom (f :: fs) (domainToken '*')
          = some ({ f with terms := .star .any :: f.terms, quantifiable := false } :: fs) := by
        simp [domainToken, parseFrom, parseStep, pushTerm, quantify]
      rw [List.flatMap_cons, parseFrom_append, h1, Option.some_bind, hq]
      simp [domainTerm]
    · obtain ⟨q, hq⟩ := ih { f with terms := .char c :: f.terms, quantifiable := true }
      refine ⟨q, ?_⟩
      have h1 : parseFrom (f :: fs) (domainToken c)
          = some ({ f with terms := .char c :: f.terms, quantifiable := true } :: fs) := by
        simp [domainToken, hs, parseFrom, parseStep, pushTerm]
      rw [List.flatMap_cons, parseFrom_append, h1, Option.some_bind, hq]
      simp [domainTerm, hs]

/-- The pattern of a keyword rule: the sequence of the characters of the pattern. -/
theorem regExp_keyword (p : Str) :
    RegExp.new (escapeRegex p) = some (mkSeq (p.map Regex.char)) := by
  unfold RegExp.new lex
  rw [lexFrom_escapeRegex]
  obtain ⟨q, hq⟩ := parseFrom_literals { alts := [], terms := [], quantifiable := false } [] p
  simp [parse, hq, Frame.close, mkAlt]

theorem lexFrom_domainHead :
    lexFrom { mode := .normal, out := [] } domainHead
      = some { mode := .normal,
               out := [.caret, .chr 'h', .chr 't', .chr 't', .chr 'p', .chr 's', .quest,
                 .chr ':', .chr '/', .chr '/', .openGroup, .cls true ['/'], .star, .chr '.',
                 .closeGroup, .quest] } := by
  decide

theorem lexFrom_domainTail (out : List Token) :
    lexFrom { mode := .normal, out := out } domainTail
      = some { mode := .normal,
               out := out ++ [.openGroup, .chr '/', .bar, .dollar, .closeGroup] } := by
  simp [domainTail, lexFrom, lexStep, isIdentityEscape, isEscaped]

/-- The pattern of a domain rule: the terms of the head of the template, one term
for each character of the pattern, the term of the tail. -/
theorem regExp_domain (p : Str) :
    RegExp.new (domainHead ++ replaceEscapedStar (escapeRegex p) ++ domainTail)
      = some (mkSeq (domainHeadTerms ++ p.map domainTerm ++ [domainTailTerm])) := by
  unfold RegExp.new lex
  rw [replaceEscapedStar_escapeRegex, lexFrom_append, lexFrom_append, lexFrom_domainHead]
  simp only [Option.some_bind, Option.bind_eq_bind]
  rw [lexFrom_domainPieces, Option.some_bind, lexFrom_domainTail]
  simp only [Option.some_bind, if_true]
  unfold parse
  rw [List.append_assoc, parseFrom_append]
  have h1 : parseFrom [{ alts := [], terms := [], quantifiable := false }]
      [.caret, .chr 'h', .chr 't', .chr 't', .chr 'p', .chr 's', .quest,
                 .chr ':', .chr '/', .chr '/', .openGroup, .cls true ['/'], .star, .chr '.',
                 .closeGroup, .quest]
      = some [{ alts := [], terms := domainHeadTerms.reverse, quantifiable := false }] := by
    decide
  rw [h1, Option.some_bind, parseFrom_append]
  obtain ⟨q, hq⟩ := parseFrom_domainTokens
    { alts := [], terms := domainHeadTerms.reverse, quantifiable := false } [] p
  rw [hq]
  simp [parseFrom, parseStep, pushTerm, Frame.close, mkAlt, mkSeq, domainTailTerm]

/-! ## The matcher on the patterns of the templates -/

theorem flatMap_congr_mem {α β : Type} (l : List α) (f g : α → List β)
    (h : ∀ a ∈ l, f a = g a) : l.flatMap f = l.flatMap g := by
  induction l with
  | nil => rfl
  | cons a l ih =>
    rw [List.flatMap_cons, List.flatMap_cons, h a (List.mem_cons_self _ _),
      ih (fun b hb => h b (List.mem_cons_of_mem _ hb))]

theorem span_refl (x : Pos) : Span x x [] := by simp [Span]

theorem span_nil {x y : Pos} : Span x y [] ↔ y = x := by
  obtain ⟨i, s⟩ := x
  obtain ⟨j, t⟩ := y
  simp only [Span, List.nil_append, List.length_nil, Nat.add_zero, Prod.mk.injEq]
  constructor
  · rintro ⟨h1, h2⟩; exact ⟨h2, h1.symm⟩
  · rintro ⟨h1, h2⟩; exact ⟨h2.symm, h1⟩

theorem span_trans {x m y : Pos} {a b : Str} (h1 : Span x m a) (h2 : Span m y b) :
    Span x y (a ++ b) := by
  obtain ⟨h1a, h1b⟩ := h1
  obtain ⟨h2a, h2b⟩ := h2
  refine ⟨?_, ?_⟩
  · rw [h1a, h2a, List.append_assoc]
  · rw [h2b, h1b, List.length_append, Nat.add_assoc]

theorem span_split {x y : Pos} {a b : Str} (h : Span x y (a ++ b)) :
    Span x (x.1 + a.length, b ++ y.2) a ∧ Span (x.1 + a.length, b ++ y.2) y b := by
  obtain ⟨h1, h2⟩ := h
  refine ⟨⟨?_, rfl⟩, ⟨rfl, ?_⟩⟩
  · rw [h1, List.append_assoc]
  · rw [h2, List.length_append, Nat.add_assoc]

theorem mem_run_mkSeq_cons (up : Char → Char) (r : Regex) (rs : List Regex) (x y : Pos) :
    y ∈ Regex.run up (mkSeq (r :: rs)) x
      ↔ ∃ m, m ∈ Regex.run up r x ∧ y ∈ Regex.run up (mkSeq rs) m := by
  simp [mkSeq, Regex.run, List.mem_flatMap]

theorem mem_run_mkSeq_nil (up : Char → Char) (x y : Pos) :
    y ∈ Regex.run up (mkSeq []) x ↔ y = x := by
  simp [mkSeq, Regex.run]

theorem mem_run_mkSeq_append (up : Char → Char) (l1 l2 : List Regex) (x y : Pos) :
    y ∈ Regex.run up (mkSeq (l1 ++ l2)) x
      ↔ ∃ m, m ∈ Regex.run up (mkSeq l1) x ∧ y ∈ Regex.run up (mkSeq l2) m := by
  induction l1 generalizing x with
  | nil => simp [mem_run_mkSeq_nil]
  | cons r l1 ih =>
    simp only [List.cons_append, mem_run_mkSeq_cons, ih]
    constructor
    · rintro ⟨m, hm, m', hm', hy⟩; exact ⟨m', ⟨m, hm, hm'⟩, hy⟩
    · rintro ⟨m', ⟨m, hm, hm'⟩, hy⟩; exact ⟨m, hm, m', hm', hy⟩

theorem charAtom_char (up : Char → Char) (c : Char) :
    CharAtom up (.char c) (fun d => Canonicalize up d = Canonicalize up c) := by
  rintro ⟨i, s⟩ ⟨j, t⟩
  cases s with
  | nil => simp [Regex.run, Span]
  | cons d s =>
    by_cases h : Canonicalize up d = Canonicalize up c
    · simp only [Regex.run, h, if_true, List.mem_singleton, Prod.mk.injEq, Span,
        List.singleton_append, List.cons.injEq, List.length_singleton]
      constructor
      · rintro ⟨h1, h2⟩; exact ⟨d, ⟨⟨rfl, h2.symm⟩, h1⟩, h⟩
      · rintro ⟨e, ⟨⟨h1, h2⟩, h3⟩, _⟩; exact ⟨h3, h2.symm⟩
    · simp only [Regex.run, h, if_false, List.not_mem_nil, Span, List.singleton_append,
        List.cons.injEq, false_iff, not_exists, not_and]
      rintro e ⟨⟨h1, _⟩, _⟩ h3
      exact h (h1 ▸ h3)

theorem charAtom_any (up : Char → Char) :
    CharAtom up .any (fun d => isLineTerminator d = false) := by
  rintro ⟨i, s⟩ ⟨j, t⟩
  cases s with
  | nil => simp [Regex.run, Span]
  | cons d s =>
    cases h : isLineTerminator d with
    | false =>
      simp only [Regex.run, h, Bool.false_eq_true, if_false, List.mem_singleton, Prod.mk.injEq,
        Span, List.singleton_append, List.cons.injEq, List.length_singleton]
      constructor
      · rintro ⟨h1, h2⟩; exact ⟨d, ⟨⟨rfl, h2.symm⟩, h1⟩, h⟩
      · rintro ⟨e, ⟨⟨h1, h2⟩, h3⟩, _⟩; exact ⟨h3, h2.symm⟩
    | true =>
      simp only [Regex.run, h, if_true, List.not_mem_nil, Span, List.singleton_append,
        List.cons.injEq, false_iff, not_exists, not_and]
      rintro e ⟨⟨h1, _⟩, _⟩ h3
      rw [← h1, h] at h3
      exact Bool.noConfusion h3

theorem charAtom_notSlash (up : Char → Char) :
    CharAtom up (.cls true ['/']) (fun d => d ≠ '/') := by
  rintro ⟨i, s⟩ ⟨j, t⟩
  cases s with
  | nil => simp [Regex.run, Span]
  | cons d s =>
    have hc : (Canonicalize up '/' = Canonicalize up d) ↔ d = '/' := by
      rw [eq_comm]; exact canon_slash up d
    by_cases h : d = '/'
    · subst h
      simp only [Regex.run, List.any_cons, List.any_nil, Bool.or_false, decide_True,
        bne_self_eq_false, Bool.false_eq_true, if_false, List.not_mem_nil, Span,
        List.singleton_append, List.cons.injEq, false_iff, not_exists, not_and]
      rintro e ⟨⟨h1, _⟩, _⟩ h3
      exact h3 h1.symm
    · have h' : ¬ (Canonicalize up '/' = Canonicalize up d) := fun hh => h (hc.mp hh)
      simp only [Regex.run, List.any_cons, List.any_nil, Bool.or_false, h', decide_False,
        bne_iff_ne, ne_eq, Bool.false_eq_true, not_false_eq_true, if_true, List.mem_singleton,
        Prod.mk.injEq, Span, List.singleton_append, List.cons.injEq, List.length_singleton]
      constructor
      · rintro ⟨h1, h2⟩; exact ⟨d, ⟨⟨rfl, h2.symm⟩, h1⟩, h⟩
      · rintro ⟨e, ⟨⟨h1, h2⟩, h3⟩, _⟩; exact ⟨h3, h2.symm⟩

theorem mem_starLoop (up : Char → Char) (r : Regex) (P : Char → Prop) (hr : CharAtom up r P)
    (n : Nat) (x y : Pos) (hn : x.2.length ≤ n) :
    y ∈ starLoop (Regex.run up r) n x ↔ ∃ a, Span x y a ∧ ∀ c ∈ a, P c := by
  induction n generalizing x with
  | zero =>
    have hx : x.2 = [] := List.length_eq_zero.mp (Nat.le_zero.mp hn)
    simp only [starLoop, List.mem_singleton]
    constructor
    · rintro rfl; exact ⟨[], span_refl _, by simp⟩
    · rintro ⟨a, ha, _⟩
      have h1 := ha.1
      rw [hx] at h1
      have ha' : a = [] := (List.append_eq_nil.mp h1.symm).1
      subst ha'
      exact span_nil.mp ha
  | succ n ih =>
    simp only [starLoop, List.mem_append, List.mem_flatMap, List.mem_filter, List.mem_singleton,
      decide_eq_true_eq]
    constructor
    · rintro (⟨m, ⟨hm, _⟩, hy⟩ | rfl)
      · obtain ⟨d, hd, hP⟩ := (hr x m).mp hm
        have hlen : m.2.length ≤ n := by
          have := congrArg List.length hd.1
          simp at this
          omega
        obtain ⟨a, ha, haP⟩ := (ih m hlen).mp hy
        refine ⟨[d] ++ a, span_trans hd ha, ?_⟩
        intro c hc
        rcases List.mem_append.mp hc with hc | hc
        · rw [List.mem_singleton.mp hc]; exact hP
        · exact haP c hc
      · exact ⟨[], span_refl _, by simp⟩
    · rintro ⟨a, ha, haP⟩
      cases a with
      | nil => exact Or.inr (span_nil.mp ha)
      | cons d a =>
        left
        have hs := span_split (a := [d]) (b := a) ha
        refine ⟨(x.1 + 1, a ++ y.2), ⟨?_, ?_⟩, ?_⟩
        · exact (hr x _).mpr ⟨d, hs.1, haP d (List.mem_cons_self _ _)⟩
        · have := congrArg List.length ha.1
          simp at this
          simp
          omega
        · apply (ih _ ?_).mpr
          · exact ⟨a, hs.2, fun c hc => haP c (List.mem_cons_of_mem _ hc)⟩
          · have := congrArg List.length ha.1
            simp at this
            simp
            omega

/-- The fuel of the repetition is never used up: one more unit changes nothing. -/
theorem starLoop_fuel (m : Pos → List Pos) (n : Nat) (x : Pos) (hn : x.2.length ≤ n) :
    starLoop m (n + 1) x = starLoop m n x := by
  induction n generalizing x with
  | zero =>
    have hx : x.2.length = 0 := Nat.le_zero.mp hn
    simp [starLoop, hx]
  | succ n ih =>
    rw [starLoop, starLoop]
    congr 1
    apply flatMap_congr_mem
    intro y hy
    have hlt : y.2.length < x.2.length := by
      simpa using (List.mem_filter.mp hy).2
    exact ih y (by omega)

theorem mem_run_star (up : Char → Char) (r : Regex) (P : Char → Prop) (hr : CharAtom up r P)
    (x y : Pos) :
    y ∈ Regex.run up (.star r) x ↔ ∃ a, Span x y a ∧ ∀ c ∈ a, P c := by
  simp only [Regex.run]
  exact mem_starLoop up r P hr _ x y (Nat.le_refl _)

theorem mem_run_opt (up : Char → Char) (r : Regex) (x y : Pos) :
    y ∈ Regex.run up (.opt r) x ↔ y ∈ Regex.run up r x ∨ y = x := by
  simp [Regex.run]

theorem mem_run_literals (up : Char → Char) (cs : Str) (x y : Pos) :
    y ∈ Regex.run up (mkSeq (cs.map Regex.char)) x ↔ ∃ a, Span x y a ∧ EqIgnoreCase up a cs := by
  induction cs generalizing x with
  | nil =>
    simp only [List.map_nil, mem_run_mkSeq_nil, EqIgnoreCase, List.map_eq_nil_iff]
    constructor
    · rintro rfl; exact ⟨[], span_refl _, rfl⟩
    · rintro ⟨a, ha, rfl⟩; exact span_nil.mp ha
  | cons c cs ih =>
    simp only [List.map_cons, mem_run_mkSeq_cons, ih]
    constructor
    · rintro ⟨m, hm, a, ha, hac⟩
      obtain ⟨d, hd, hP⟩ := (charAtom_char up c x m).mp hm
      refine ⟨[d] ++ a, span_trans hd ha, ?_⟩
      unfold EqIgnoreCase at hac ⊢
      simp [hP, hac]
    · rintro ⟨a, ha, hac⟩
      unfold EqIgnoreCase at hac
      cases a with
      | nil => simp at hac
      | cons d a =>
        simp only [List.map_cons, List.cons.injEq] at hac
        have hs := span_split (a := [d]) (b := a) ha
        exact ⟨_, (charAtom_char up c x _).mpr ⟨d, hs.1, hac.1⟩, a, hs.2, hac.2⟩

theorem mem_run_domainTerms (up : Char → Char) (p : Str) (x y : Pos) :
    y ∈ Regex.run up (mkSeq (p.map domainTerm)) x ↔ ∃ a, Span x y a ∧ GlobMatch up p a := by
  induction p generalizing x with
  | nil =>
    simp only [List.map_nil, mem_run_mkSeq_nil, GlobMatch]
    constructor
    · rintro rfl; exact ⟨[], span_refl _, rfl⟩
    · rintro ⟨a, ha, rfl⟩; exact span_nil.mp ha
  | cons c p ih =>
    simp only [List.map_cons, mem_run_mkSeq_cons, ih]
    by_cases hs : c = '*'
    · subst hs
      simp only [domainTerm, if_true, GlobMatch, mem_run_star up _ _ (charAtom_any up)]
      constructor
      · rintro ⟨m, ⟨t, ht, htP⟩, a, ha, hg⟩
        exact ⟨t ++ a, span_trans ht ha, t, a, rfl, htP, hg⟩
      · rintro ⟨_, ha, t, a, rfl, htP, hg⟩
        have hsp := span_split ha
        exact ⟨_, ⟨t, hsp.1, htP⟩, a, hsp.2, hg⟩
    · simp only [domainTerm, hs, if_false, GlobMatch]
      constructor
      · rintro ⟨m, hm, a, ha, hg⟩
        obtain ⟨d, hd, hP⟩ := (charAtom_char up c x m).mp hm
        exact ⟨[d] ++ a, span_trans hd ha, d, a, rfl, hP, hg⟩
      · rintro ⟨_, ha, d, a, rfl, hP, hg⟩
        have hsp := span_split (a := [d]) (b := a) ha
        exact ⟨_, (charAtom_char up c x _).mpr ⟨d, hsp.1, hP⟩, a, hsp.2, hg⟩

theorem eqIgnoreCase_append {up : Char → Char} {a b c d : Str} (h1 : EqIgnoreCase up a c)
    (h2 : EqIgnoreCase up b d) : EqIgnoreCase up (a ++ b) (c ++ d) := by
  unfold EqIgnoreCase at *
  rw [List.map_append, List.map_append, h1, h2]

theorem eqIgnoreCase_split {up : Char → Char} {s c d : Str} (h : EqIgnoreCase up s (c ++ d)) :
    ∃ a b, s = a ++ b ∧ EqIgnoreCase up a c ∧ EqIgnoreCase up b d := by
  unfold EqIgnoreCase at *
  rw [List.map_append] at h
  exact List.map_eq_append_iff.mp h

theorem eqIgnoreCase_length {up : Char → Char} {a b : Str} (h : EqIgnoreCase up a b) :
    a.length = b.length := by
  have := congrArg List.length h
  simpa using this

theorem mem_run_bol (up : Char → Char) (x y : Pos) :
    y ∈ Regex.run up .bol x ↔ y = x ∧ x.1 = 0 := by
  by_cases h : x.1 = 0 <;> simp [Regex.run, h]

theorem mem_run_scheme (up : Char → Char) (x y : Pos) :
    y ∈ Regex.run up (mkSeq ("http".toList.map Regex.char ++ ([.opt (.char 's')]
        ++ "://".toList.map Regex.char))) x
      ↔ ∃ s, Span x y s ∧ IsScheme up s := by
  simp only [mem_run_mkSeq_append, mem_run_literals, mem_run_mkSeq_cons, mem_run_mkSeq_nil,
    mem_run_opt, IsScheme]
  constructor
  · rintro ⟨m1, ⟨a1, h1, e1⟩, m3, ⟨m2, hs, hm⟩, a3, h3, e3⟩
    subst hm
    rcases hs with hs | hs
    · obtain ⟨d, hd, hP⟩ := (charAtom_char up 's' m1 m3).mp hs
      refine ⟨a1 ++ ([d] ++ a3), span_trans h1 (span_trans hd h3), Or.inr ?_⟩
      have hd' : EqIgnoreCase up [d] ['s'] := by simp [EqIgnoreCase, hP]
      exact eqIgnoreCase_append e1 (eqIgnoreCase_append hd' e3)
    · subst hs
      exact ⟨a1 ++ a3, span_trans h1 h3, Or.inl (eqIgnoreCase_append e1 e3)⟩
  · rintro ⟨s, hs, (e | e)⟩
    · obtain ⟨a1, a3, rfl, e1, e3⟩ :=
        eqIgnoreCase_split (c := "http".toList) (d := "://".toList) e
      have hsp := span_split hs
      exact ⟨_, ⟨a1, hsp.1, e1⟩, _, ⟨_, Or.inr rfl, rfl⟩, a3, hsp.2, e3⟩
    · obtain ⟨a1, r, rfl, e1, e'⟩ :=
        eqIgnoreCase_split (c := "http".toList) (d := "s://".toList) e
      obtain ⟨a2, a3, rfl, e2, e3⟩ :=
        eqIgnoreCase_split (c := ['s']) (d := "://".toList) e'
      have hsp := span_split hs
      have hsp2 := span_split hsp.2
      refine ⟨_, ⟨a1, hsp.1, e1⟩, _, ⟨_, Or.inl ?_, rfl⟩, a3, hsp2.2, e3⟩
      unfold EqIgnoreCase at e2
      cases a2 with
      | nil => simp at e2
      | cons d a2 =>
        cases a2 with
        | nil =>
          simp only [List.map_cons, List.map_nil, List.cons.injEq, and_true] at e2
          exact (charAtom_char up 's' _ _).mpr ⟨d, hsp2.1, e2⟩
        | cons d' a2 => simp at e2

theorem mem_run_labels (up : Char → Char) (x y : Pos) :
    y ∈ Regex.run up (.opt (.seq (.star (.cls true ['/'])) (.seq (.char '.') .empty))) x
      ↔ ∃ pre, Span x y pre ∧ IsLabels pre := by
  have hseq : ∀ z : Pos, z ∈ Regex.run up (.seq (.star (.cls true ['/']))
      (.seq (.char '.') .empty)) x
        ↔ ∃ q, Span x z (q ++ ['.']) ∧ ∀ c ∈ q, c ≠ '/' := by
    intro z
    rw [show Regex.seq (.star (.cls true ['/'])) (.seq (.char '.') .empty)
      = mkSeq [.star (.cls true ['/']), .char '.'] from rfl, mem_run_mkSeq_cons]
    simp only [mem_run_star up _ _ (charAtom_notSlash up)]
    have h2 : ∀ m : Pos, z ∈ Regex.run up (.seq (.char '.') .empty) m
        ↔ Span m z ['.'] := by
      intro m
      rw [show Regex.seq (.char '.') .empty = mkSeq [.char '.'] from rfl, mem_run_mkSeq_cons]
      simp only [mem_run_mkSeq_nil]
      constructor
      · rintro ⟨m', hm', rfl⟩
        obtain ⟨d, hd, hP⟩ := (charAtom_char up '.' m z).mp hm'
        rw [canon_dot] at hP
        rw [← hP]; exact hd
      · intro hz
        exact ⟨z, (charAtom_char up '.' m z).mpr ⟨'.', hz, rfl⟩, rfl⟩
    constructor
    · rintro ⟨m, ⟨q, hq, hqP⟩, hz⟩
      exact ⟨q, span_trans hq ((h2 m).mp hz), hqP⟩
    · rintro ⟨q, hq, hqP⟩
      have hsp := span_split hq
      exact ⟨_, ⟨q, hsp.1, hqP⟩, (h2 _).mpr hsp.2⟩
  rw [mem_run_opt, hseq]
  constructor
  · rintro (⟨q, hq, hqP⟩ | rfl)
    · refine ⟨q ++ ['.'], hq, Or.inr ⟨?_, q, rfl⟩⟩
      intro hmem
      rcases List.mem_append.mp hmem with h | h
      · exact hqP _ h rfl
      · simp at h
    · exact ⟨[], span_refl _, Or.inl rfl⟩
  · rintro ⟨pre, hpre, (rfl | ⟨hn, q, rfl⟩)⟩
    · exact Or.inr (span_nil.mp hpre)
    · refine Or.inl ⟨q, hpre, ?_⟩
      rintro c hc rfl
      exact hn (List.mem_append_left _ hc)

theorem mem_run_domainTail (up : Char → Char) (x y : Pos) :
    y ∈ Regex.run up domainTailTerm x ↔ Span x y ['/'] ∨ (y = x ∧ x.2 = []) := by
  have h1 : ∀ z : Pos, z ∈ Regex.run up (.seq (.char '/') .empty) x ↔ Span x z ['/'] := by
    intro z
    rw [show Regex.seq (.char '/') .empty = mkSeq [.char '/'] from rfl, mem_run_mkSeq_cons]
    simp only [mem_run_mkSeq_nil]
    constructor
    · rintro ⟨m', hm', rfl⟩
      obtain ⟨d, hd, hP⟩ := (charAtom_char up '/' x z).mp hm'
      rw [canon_slash] at hP
      rw [← hP]; exact hd
    · intro hz
      exact ⟨z, (charAtom_char up '/' x z).mpr ⟨'/', hz, rfl⟩, rfl⟩
  have h2 : y ∈ Regex.run up (.seq .eol .empty) x ↔ (y = x ∧ x.2 = []) := by
    by_cases h : x.2 = [] <;> simp [Regex.run, h]
  unfold domainTailTerm
  rw [show Regex.run up (.alt (.seq (.char '/') .empty) (.seq .eol .empty)) x
      = Regex.run up (.seq (.char '/') .empty) x ++ Regex.run up (.seq .eol .empty) x from by
        simp [Regex.run]]
  rw [List.mem_append, h1, h2]

theorem test_iff (up : Char → Char) (re : Regex) (u : Str) :
    RegExp.test up re u = true
      ↔ ∃ a b y, u = a ++ b ∧ y ∈ Regex.run up re (a.length, b) := by
  unfold RegExp.test
  rw [List.any_eq_true]
  constructor
  · rintro ⟨i, hi, h⟩
    have hi' : i ≤ u.length := Nat.lt_succ_iff.mp (List.mem_range.mp hi)
    cases hl : Regex.run up re (i, List.drop i u) with
    | nil => simp [hl] at h
    | cons y l =>
      refine ⟨u.take i, u.drop i, y, (List.take_append_drop i u).symm, ?_⟩
      rw [List.length_take, Nat.min_eq_left hi', hl]
      exact List.mem_cons_self _ _
  · rintro ⟨a, b, y, rfl, hy⟩
    refine ⟨a.length, List.mem_range.mpr (by simp; omega), ?_⟩
    rw [List.drop_left]
    cases hl : Regex.run up re (a.length, b) with
    | nil => rw [hl] at hy; simp at hy
    | cons y l => simp

/-- A keyword pattern accepts exactly the strings that contain the pattern text,
ignoring letter case. -/
theorem test_keyword (up : Char → Char) (p u : Str) :
    RegExp.test up (mkSeq (p.map Regex.char)) u = true
      ↔ ∃ a m b, u = a ++ m ++ b ∧ EqIgnoreCase up m p := by
  rw [test_iff]
  simp only [mem_run_literals]
  constructor
  · rintro ⟨a, b, y, rfl, m, hm, e⟩
    refine ⟨a, m, y.2, ?_, e⟩
    rw [List.append_assoc, ← hm.1]
  · rintro ⟨a, m, b, rfl, e⟩
    refine ⟨a, m ++ b, (a.length + m.length, b), by rw [List.append_assoc], m, ⟨rfl, rfl⟩, e⟩

theorem mem_run_schemeLabels (up : Char → Char) (x y : Pos) :
    y ∈ Regex.run up (mkSeq (("http".toList.map Regex.char
        ++ ([.opt (.char 's')] ++ "://".toList.map Regex.char))
        ++ [.opt (.seq (.star (.cls true ['/'])) (.seq (.char '.') .empty))])) x
      ↔ ∃ s pre, Span x y (s ++ pre) ∧ IsScheme up s ∧ IsLabels pre := by
  rw [mem_run_mkSeq_append]
  simp only [mem_run_scheme, mem_run_mkSeq_cons, mem_run_mkSeq_nil, mem_run_labels]
  constructor
  · rintro ⟨m, ⟨s, hs, hsch⟩, m', ⟨pre, hpre, hlab⟩, rfl⟩
    exact ⟨s, pre, span_trans hs hpre, hsch, hlab⟩
  · rintro ⟨s, pre, h, hsch, hlab⟩
    have h1 := span_split h
    exact ⟨_, ⟨s, h1.1, hsch⟩, y, ⟨pre, h1.2, hlab⟩, rfl⟩

theorem mem_run_patternTail (up : Char → Char) (p : Str) (x y : Pos) :
    y ∈ Regex.run up (mkSeq (p.map domainTerm ++ [domainTailTerm])) x
      ↔ ∃ mid, GlobMatch up p mid
          ∧ (Span x y (mid ++ ['/']) ∨ (Span x y mid ∧ y.2 = [])) := by
  rw [mem_run_mkSeq_append]
  simp only [mem_run_domainTerms, mem_run_mkSeq_cons, mem_run_mkSeq_nil, mem_run_domainTail]
  constructor
  · rintro ⟨m, ⟨mid, hmid, hglob⟩, m', h, rfl⟩
    rcases h with h | ⟨rfl, he⟩
    · exact ⟨mid, hglob, Or.inl (span_trans hmid h)⟩
    · exact ⟨mid, hglob, Or.inr ⟨hmid, he⟩⟩
  · rintro ⟨mid, hglob, h⟩
    rcases h with h | ⟨h, he⟩
    · have h1 := span_split h
      exact ⟨_, ⟨mid, h1.1, hglob⟩, y, Or.inl h1.2, rfl⟩
    · exact ⟨y, ⟨mid, h, hglob⟩, y, Or.inr ⟨rfl, he⟩, rfl⟩

theorem mem_run_domain (up : Char → Char) (p : Str) (x y : Pos) :
    y ∈ Regex.run up (mkSeq (domainHeadTerms ++ p.map domainTerm ++ [domainTailTerm])) x
      ↔ x.1 = 0 ∧ ∃ scheme pre mid, IsScheme up scheme ∧ IsLabels pre ∧ GlobMatch up p mid
          ∧ (Span x y (scheme ++ pre ++ mid ++ ['/'])
              ∨ (Span x y (scheme ++ pre ++ mid) ∧ y.2 = [])) := by
  have hhead : domainHeadTerms = [Regex.bol] ++ (("http".toList.map Regex.char
      ++ ([.opt (.char 's')] ++ "://".toList.map Regex.char))
      ++ [.opt (.seq (.star (.cls true ['/'])) (.seq (.char '.') .empty))]) := rfl
  rw [hhead, List.append_assoc, List.append_assoc, List.singleton_append, mem_run_mkSeq_cons]
  simp only [mem_run_bol]
  constructor
  · rintro ⟨m0, ⟨rfl, h0⟩, h⟩
    rw [mem_run_mkSeq_append] at h
    obtain ⟨m, hm, hy⟩ := h
    obtain ⟨s, pre, hsp, hsch, hlab⟩ := (mem_run_schemeLabels up _ _).mp hm
    obtain ⟨mid, hglob, h⟩ := (mem_run_patternTail up p _ _).mp hy
    refine ⟨h0, s, pre, mid, hsch, hlab, hglob, ?_⟩
    rcases h with h | ⟨h, he⟩
    · left
      have := span_trans hsp h
      rwa [← List.append_assoc] at this
    · exact Or.inr ⟨span_trans hsp h, he⟩
  · rintro ⟨h0, s, pre, mid, hsch, hlab, hglob, h⟩
    refine ⟨x, ⟨rfl, h0⟩, ?_⟩
    rw [mem_run_mkSeq_append]
    rcases h with h | ⟨h, he⟩
    · rw [List.append_assoc] at h
      have h1 := span_split h
      exact ⟨_, (mem_run_schemeLabels up _ _).mpr ⟨s, pre, h1.1, hsch, hlab⟩,
        (mem_run_patternTail up p _ _).mpr ⟨mid, hglob, Or.inl h1.2⟩⟩
    · have h1 := span_split h
      exact ⟨_, (mem_run_schemeLabels up _ _).mpr ⟨s, pre, h1.1, hsch, hlab⟩,
        (mem_run_patternTail up p _ _).mpr ⟨mid, hglob, Or.inr ⟨h1.2, he⟩⟩⟩

/-- A domain pattern accepts exactly the strings of the shape scheme, optional
labels, an instance of the pattern text, end or path. -/
theorem test_domain (up : Char → Char) (p u : Str) :
    RegExp.test up (mkSeq (domainHeadTerms ++ p.map domainTerm ++ [domainTailTerm])) u = true
      ↔ DomainForm up (GlobMatch up p) u := by
  rw [test_iff]
  simp only [mem_run_domain]
  unfold DomainForm
  constructor
  · rintro ⟨a, b, y, rfl, ha, s, pre, mid, hsch, hlab, hglob, h⟩
    have ha' : a = [] := List.length_eq_zero.mp ha
    subst ha'
    rcases h with h | ⟨h, he⟩
    · refine ⟨s, pre, mid, '/' :: y.2, ?_, hsch, hlab, hglob, Or.inr ⟨_, rfl⟩⟩
      have := h.1
      simp only [List.nil_append] at this ⊢
      rw [this]; simp
    · refine ⟨s, pre, mid, [], ?_, hsch, hlab, hglob, Or.inl rfl⟩
      have := h.1
      simp only [List.nil_append] at this ⊢
      rw [this, he]
  · rintro ⟨s, pre, mid, tail, rfl, hsch, hlab, hglob, (rfl | ⟨t, rfl⟩)⟩
    · refine ⟨[], _, (0 + (s ++ pre ++ mid).length, []), rfl, rfl, s, pre, mid, hsch, hlab,
        hglob, Or.inr ⟨⟨by simp, rfl⟩, rfl⟩⟩
    · refine ⟨[], _, (0 + (s ++ pre ++ mid ++ ['/']).length, t), rfl, rfl, s, pre, mid, hsch,
        hlab, hglob, Or.inl ⟨by simp, rfl⟩⟩

/-! ## ASCII inputs do not depend on the upper-case table -/

theorem canonicalize_ascii (up : Char → Char) (c : Char) (h : c.toNat < 128) :
    Canonicalize up c = asciiUpper c := by
  simp [Canonicalize, h]

theorem isAsciiStr_cons {d : Char} {s : Str} (h : isAsciiStr (d :: s) = true) :
    d.toNat < 128 ∧ isAsciiStr s = true := by
  simpa [isAsciiStr] using h

theorem starLoop_ascii (m m' : Pos → List Pos)
    (h : ∀ x : Pos, isAsciiStr x.2 = true → m x = m' x ∧ ∀ y ∈ m x, isAsciiStr y.2 = true)
    (n : Nat) (x : Pos) (hx : isAsciiStr x.2 = true) :
    starLoop m n x = starLoop m' n x ∧ ∀ y ∈ starLoop m n x, isAsciiStr y.2 = true := by
  induction n generalizing x with
  | zero =>
    simp only [starLoop, List.mem_singleton, true_and]
    rintro y rfl; exact hx
  | succ n ih =>
    obtain ⟨h1, h2⟩ := h x hx
    simp only [starLoop]
    rw [← h1]
    constructor
    · congr 1
      apply flatMap_congr_mem
      intro a ha
      exact (ih a (h2 a (List.mem_of_mem_filter ha))).1
    · intro y hy
      rcases List.mem_append.mp hy with hy | hy
      · obtain ⟨a, ha, hya⟩ := List.mem_flatMap.mp hy
        exact (ih a (h2 a (List.mem_of_mem_filter ha))).2 y hya
      · rw [List.mem_singleton.mp hy]; exact hx

theorem run_ascii (up up' : Char → Char) (re : Regex) (hre : re.isAscii = true) (x : Pos)
    (hx : isAsciiStr x.2 = true) :
    Regex.run up re x = Regex.run up' re x ∧ ∀ y ∈ Regex.run up re x, isAsciiStr y.2 = true := by
  induction re generalizing x with
  | empty =>
    simp only [Regex.run, List.mem_singleton, true_and]
    rintro y rfl; exact hx
  | char c =>
    obtain ⟨i, s⟩ := x
    have hc : c.toNat < 128 := by simpa [Regex.isAscii] using hre
    cases s with
    | nil => simp [Regex.run]
    | cons d s =>
      obtain ⟨hd, hs⟩ := isAsciiStr_cons hx
      simp only [Regex.run, canonicalize_ascii _ _ hc, canonicalize_ascii _ _ hd, true_and]
      intro y hy
      split at hy
      · rw [List.mem_singleton.mp hy]; exact hs
      · simp at hy
  | any =>
    obtain ⟨i, s⟩ := x
    cases s with
    | nil => simp [Regex.run]
    | cons d s =>
      obtain ⟨hd, hs⟩ := isAsciiStr_cons hx
      simp only [Regex.run, true_and]
      intro y hy
      split at hy
      · simp at hy
      · rw [List.mem_singleton.mp hy]; exact hs
  | cls neg ms =>
    obtain ⟨i, s⟩ := x
    have hms : ∀ a ∈ ms, a.toNat < 128 := by
      simpa [Regex.isAscii, isAsciiStr] using hre
    cases s with
    | nil => simp [Regex.run]
    | cons d s =>
      obtain ⟨hd, hs⟩ := isAsciiStr_cons hx
      have hany : ∀ u : Char → Char,
          (ms.any fun a => decide (Canonicalize u a = Canonicalize u d))
            = (ms.any fun a => decide (asciiUpper a = asciiUpper d)) := by
        intro u
        apply Bool.eq_iff_iff.mpr
        simp only [List.any_eq_true, decide_eq_true_eq]
        constructor
        · rintro ⟨a, ha, e⟩
          rw [canonicalize_ascii _ _ (hms a ha), canonicalize_ascii _ _ hd] at e
          exact ⟨a, ha, e⟩
        · rintro ⟨a, ha, e⟩
          refine ⟨a, ha, ?_⟩
          rw [canonicalize_ascii _ _ (hms a ha), canonicalize_ascii _ _ hd]
          exact e
      simp only [Regex.run, hany, true_and]
      intro y hy
      split at hy
      · rw [List.mem_singleton.mp hy]; exact hs
      · simp at hy
  | bol =>
    simp only [Regex.run, true_and]
    intro y hy
    split at hy
    · rw [List.mem_singleton.mp hy]; exact hx
    · simp at hy
  | eol =>
    simp only [Regex.run, true_and]
    intro y hy
    split at hy
    · rw [List.mem_singleton.mp hy]; exact hx
    · simp at hy
  | seq a b iha ihb =>
    have hab : a.isAscii = true ∧ b.isAscii = true := by simpa [Regex.isAscii] using hre
    obtain ⟨h1, h2⟩ := iha hab.1 x hx
    simp only [Regex.run]
    rw [← h1]
    constructor
    · exact flatMap_congr_mem _ _ _ (fun m hm => (ihb hab.2 m (h2 m hm)).1)
    · intro y hy
      obtain ⟨m, hm, hym⟩ := List.mem_flatMap.mp hy
      exact (ihb hab.2 m (h2 m hm)).2 y hym
  | alt a b iha ihb =>
    have hab : a.isAscii = true ∧ b.isAscii = true := by simpa [Regex.isAscii] using hre
    obtain ⟨h1, h2⟩ := iha hab.1 x hx
    obtain ⟨h3, h4⟩ := ihb hab.2 x hx
    simp only [Regex.run]
    rw [← h1, ← h3]
    refine ⟨rfl, ?_⟩
    intro y hy
    rcases List.mem_append.mp hy with hy | hy
    · exact h2 y hy
    · exact h4 y hy
  | star a iha =>
    have ha : a.isAscii = true := by simpa [Regex.isAscii] using hre
    simp only [Regex.run]
    exact starLoop_ascii _ _ (fun z hz => iha ha z hz) _ x hx
  | plus a iha =>
    have ha : a.isAscii = true := by simpa [Regex.isAscii] using hre
    obtain ⟨h1, h2⟩ := iha ha x hx
    simp only [Regex.run]
    rw [← h1]
    constructor
    · exact flatMap_congr_mem _ _ _
        (fun m hm => (starLoop_ascii _ _ (fun z hz => iha ha z hz) _ m (h2 m hm)).1)
    · intro y hy
      obtain ⟨m, hm, hym⟩ := List.mem_flatMap.mp hy
      exact (starLoop_ascii _ _ (fun z hz => iha ha z hz) _ m (h2 m hm)).2 y hym
  | opt a iha =>
    have ha : a.isAscii = true := by simpa [Regex.isAscii] using hre
    obtain ⟨h1, h2⟩ := iha ha x hx
    simp only [Regex.run]
    rw [← h1]
    refine ⟨rfl, ?_⟩
    intro y hy
    rcases List.mem_append.mp hy with hy | hy
    · exact h2 y hy
    · rw [List.mem_singleton.mp hy]; exact hx

theorem isAsciiStr_drop (u : Str) (i : Nat) (h : isAsciiStr u = true) :
    isAsciiStr (u.drop i) = true := by
  unfold isAsciiStr at *
  rw [List.all_eq_true] at *
  exact fun c hc => h c (List.mem_of_mem_drop hc)

theorem test_ascii (up up' : Char → Char) (re : Regex) (u : Str) (hre : re.isAscii = true)
    (hu : isAsciiStr u = true) : RegExp.test up re u = RegExp.test up' re u := by
  unfold RegExp.test
  congr 1
  funext i
  rw [(run_ascii up up' re hre (i, u.drop i) (isAsciiStr_drop u i hu)).1]

/-- On an ASCII URL, the verdict of a rule with an ASCII pattern is the same for
every upper-case table. -/
theorem accepts_ascii (up : Char → Char) (rule : Rule) (u : Str) (re : Regex)
    (h : patternToRegex rule = some (some re)) (hre : re.isAscii = true)
    (hu : isAsciiStr u = true) : accepts up rule u = accepts id rule u := by
  unfold accepts
  rw [h]
  exact test_ascii up id re u hre hu

theorem accepts_ascii_eq (up : Char → Char) (rule : Rule) (u : Str) (re : Regex) (b : Bool)
    (h : patternToRegex rule = some (some re)) (hre : re.isAscii = true)
    (hu : isAsciiStr u = true) (hb : accepts id rule u = b) : accepts up rule u = b := by
  rw [accepts_ascii up rule u re h hre hu, hb]

/-! ## What `patternToRegex` returns -/

theorem patternToRegex_blank (rule : Rule) (hp : trimmedPattern rule = []) :
    patternToRegex rule = some none := by
  unfold trimmedPattern at hp
  simp [patternToRegex, hp]

theorem patternToRegex_domain (rule : Rule) (hd : rule.type = "domain")
    (hp : trimmedPattern rule ≠ []) :
    patternToRegex rule = some (some (mkSeq (domainHeadTerms
      ++ (trimmedPattern rule).map domainTerm ++ [domainTailTerm]))) := by
  unfold trimmedPattern at hp
  simp only [patternToRegex, hp, if_false, hd, if_true, regExp_domain, Option.map_some',
    trimmedPattern]

theorem patternToRegex_keyword (rule : Rule) (hd : rule.type ≠ "domain")
    (hp : trimmedPattern rule ≠ []) :
    patternToRegex rule = some (some (mkSeq ((trimmedPattern rule).map Regex.char))) := by
  unfold trimmedPattern at hp
  simp only [patternToRegex, hp, if_false, hd, regExp_keyword, Option.map_some', trimmedPattern]

/-- The constructor never throws on the sources that `patternToRegex` builds. -/
theorem patternToRegex_total (rule : Rule) : ∃ r, patternToRegex rule = some r := by
  by_cases hp : trimmedPattern rule = []
  · exact ⟨_, patternToRegex_blank rule hp⟩
  · by_cases hd : rule.type = "domain"
    · exact ⟨_, patternToRegex_domain rule hd hp⟩
    · exact ⟨_, patternToRegex_keyword rule hd hp⟩

theorem accepts_blank (up : Char → Char) (rule : Rule) (u : Str)
    (hp : trimmedPattern rule = []) : accepts up rule u = false := by
  simp [accepts, patternToRegex_blank rule hp]

theorem accepts_domain (up : Char → Char) (rule : Rule) (u : Str) (hd : rule.type = "domain")
    (hp : trimmedPattern rule ≠ []) :
    accepts up rule u = true ↔ DomainForm up (GlobMatch up (trimmedPattern rule)) u := by
  simp only [accepts, patternToRegex_domain rule hd hp, test_domain]

theorem accepts_keyword (up : Char → Char) (rule : Rule) (u : Str) (hd : rule.type ≠ "domain")
    (hp : trimmedPattern rule ≠ []) :
    accepts up rule u = true
      ↔ ∃ a m b, u = a ++ m ++ b ∧ EqIgnoreCase up m (trimmedPattern rule) := by
  simp only [accepts, patternToRegex_keyword rule hd hp, test_keyword]

/-! ## Pattern texts and their instances -/

theorem eqIgnoreCase_nil {up : Char → Char} {a : Str} : EqIgnoreCase up a [] ↔ a = [] := by
  simp [EqIgnoreCase]

theorem eqIgnoreCase_cons {up : Char → Char} {a s : Str} {c : Char} :
    EqIgnoreCase up a (c :: s)
      ↔ ∃ d r, a = d :: r ∧ Canonicalize up d = Canonicalize up c ∧ EqIgnoreCase up r s := by
  unfold EqIgnoreCase
  rw [List.map_cons, List.map_eq_cons_iff]

theorem globMatch_append_literal (up : Char → Char) (s rest a : Str) (hs : '*' ∉ s) :
    GlobMatch up (s ++ rest) a
      ↔ ∃ a1 a2, a = a1 ++ a2 ∧ EqIgnoreCase up a1 s ∧ GlobMatch up rest a2 := by
  induction s generalizing a with
  | nil =>
    simp only [List.nil_append, eqIgnoreCase_nil]
    constructor
    · intro h; exact ⟨[], a, rfl, rfl, h⟩
    · rintro ⟨a1, a2, rfl, rfl, h⟩; exact h
  | cons c s ih =>
    have hc : c ≠ '*' := fun h => hs (h ▸ List.mem_cons_self _ _)
    have hs' : '*' ∉ s := fun h => hs (List.mem_cons_of_mem _ h)
    simp only [List.cons_append, GlobMatch, hc, if_false, eqIgnoreCase_cons]
    constructor
    · rintro ⟨d, r, rfl, hd, hr⟩
      obtain ⟨a1, a2, rfl, e1, h2⟩ := (ih r hs').mp hr
      exact ⟨d :: a1, a2, rfl, ⟨d, a1, rfl, hd, e1⟩, h2⟩
    · rintro ⟨_, a2, rfl, ⟨d, a1, rfl, hd, e1⟩, h2⟩
      exact ⟨d, a1 ++ a2, rfl, hd, (ih _ hs').mpr ⟨a1, a2, rfl, e1, h2⟩⟩

theorem globMatch_literal (up : Char → Char) (s a : Str) (hs : '*' ∉ s) :
    GlobMatch up s a ↔ EqIgnoreCase up a s := by
  have h := globMatch_append_literal up s [] a hs
  rw [List.append_nil] at h
  rw [h]
  simp only [GlobMatch]
  constructor
  · rintro ⟨a1, a2, rfl, e, rfl⟩; rwa [List.append_nil]
  · intro e; exact ⟨a, [], (List.append_nil a).symm, e, rfl⟩

theorem intercalate_cons_cons (sep s s' : Str) (rest : List Str) :
    List.intercalate sep (s :: s' :: rest) = s ++ (sep ++ List.intercalate sep (s' :: rest)) := by
  simp [List.intercalate, List.intersperse]

theorem globMatch_segments (up : Char → Char) (segs : List Str) (a : Str) (hne : segs ≠ [])
    (hfree : ∀ s ∈ segs, '*' ∉ s) :
    GlobMatch up (List.intercalate ['*'] segs) a ↔ SegForm up NoLineTerminator segs a := by
  induction segs generalizing a with
  | nil => exact absurd rfl hne
  | cons s rest ih =>
    cases rest with
    | nil =>
      have : List.intercalate ['*'] [s] = s := by simp [List.intercalate, List.intersperse]
      rw [this, SegForm]
      exact globMatch_literal up s a (hfree s (List.mem_cons_self _ _))
    | cons s' rest =>
      rw [intercalate_cons_cons,
        globMatch_append_literal up s _ a (hfree s (List.mem_cons_self _ _))]
      simp only [SegForm, List.singleton_append, GlobMatch, if_true]
      have ih' := fun b => ih b (List.cons_ne_nil _ _)
        (fun x hx => hfree x (List.mem_cons_of_mem _ hx))
      constructor
      · rintro ⟨a1, _, rfl, e1, t, a2, rfl, ht, h2⟩
        exact ⟨a1, t, a2, by simp, e1, ht, (ih' a2).mp h2⟩
      · rintro ⟨a1, t, a2, rfl, e1, ht, h2⟩
        exact ⟨a1, t ++ a2, by simp, e1, t, a2, rfl, ht, (ih' a2).mpr h2⟩

/-! ## The claims about `patternToRegex` -/

theorem exampleCom_regex :
    patternToRegex (domainRule "example.com")
      = some (some (mkSeq (domainHeadTerms ++ "example.com".toList.map domainTerm
          ++ [domainTailTerm]))) := by
  decide

/-- C2: a domain rule whose trimmed pattern is non-empty and has no `*` accepts a URL
if and only if the URL is, ignoring letter case, `http://` or `https://`, an optional
part without `/` that ends in `.`, the pattern taken literally, then the end of the
string or a `/` followed by anything; `example.com` accepts `https://example.com/` and
`https://www.example.com/page` and rejects `https://notexample.com/` and
`https://example.com.evil.org/`. -/
theorem domain_literal_accepts_iff (up : Char → Char) :
    (∀ (rule : Rule) (u : Str), rule.type = "domain" → trimmedPattern rule ≠ [] →
        '*' ∉ trimmedPattern rule →
        (∃ re, patternToRegex rule = some (some re))
          ∧ (accepts up rule u = true
            ↔ DomainForm up (fun mid => EqIgnoreCase up mid (trimmedPattern rule)) u))
      ∧ accepts up (domainRule "example.com") "https://example.com/".toList = true
      ∧ accepts up (domainRule "example.com") "https://www.example.com/page".toList = true
      ∧ accepts up (domainRule "example.com") "https://notexample.com/".toList = false
      ∧ accepts up (domainRule "example.com") "https://example.com.evil.org/".toList = false := by
  refine ⟨?_, ?_, ?_, ?_, ?_⟩
  · intro rule u hd hp hs
    refine ⟨⟨_, patternToRegex_domain rule hd hp⟩, ?_⟩
    rw [accepts_domain up rule u hd hp]
    unfold DomainForm
    simp only [globMatch_literal up _ _ hs]
  · exact accepts_ascii_eq up _ _ _ _ exampleCom_regex (by decide) (by decide) (by decide)
  · exact accepts_ascii_eq up _ _ _ _ exampleCom_regex (by decide) (by decide) (by decide)
  · exact accepts_ascii_eq up _ _ _ _ exampleCom_regex (by decide) (by decide) (by decide)
  · exact accepts_ascii_eq up _ _ _ _ exampleCom_regex (by decide) (by decide) (by decide)

/-- Witness of C2: the rule `example.com` on `https://sub.example.com/a?b`. -/
theorem domain_literal_accepts_iff_witness :
    (domainRule "example.com").type = "domain"
      ∧ trimmedPattern (domainRule "example.com") ≠ []
      ∧ '*' ∉ trimmedPattern (domainRule "example.com")
      ∧ (accepts id (domainRule "example.com") "https://sub.example.com/a?b".toList = true
          ↔ DomainForm id
              (fun mid => EqIgnoreCase id mid (trimmedPattern (domainRule "example.com")))
              "https://sub.example.com/a?b".toList) :=
  ⟨rfl, by decide, by decide,
    ((domain_literal_accepts_iff id).1 (domainRule "example.com")
      "https://sub.example.com/a?b".toList rfl (by decide) (by decide)).2⟩

/-- C3: a rule whose type is not `domain` and whose trimmed pattern is non-empty
accepts a URL if and only if the pattern occurs in the URL as a contiguous substring,
compared ignoring letter case, at any position; every character of the pattern, the
metacharacters of regular expressions included, stands for itself. -/
theorem keyword_accepts_iff (up : Char → Char) (rule : Rule) (u : Str)
    (ht : rule.type ≠ "domain") (hp : trimmedPattern rule ≠ []) :
    (∃ re, patternToRegex rule = some (some re))
      ∧ (accepts up rule u = true
        ↔ ∃ a m b, u = a ++ m ++ b ∧ EqIgnoreCase up m (trimmedPattern rule)) :=
  ⟨⟨_, patternToRegex_keyword rule ht hp⟩, accepts_keyword up rule u ht hp⟩

/-- Witness of C3: the keyword `a.b*(c)` occurs in `https://x.org/A.B*(C)?q`. -/
theorem keyword_accepts_iff_witness :
    ({ pattern := some " a.b*(c) ".toList, type := "keyword", enabled := none } : Rule).type
        ≠ "domain"
      ∧ trimmedPattern { pattern := some " a.b*(c) ".toList, type := "keyword", enabled := none }
          = "a.b*(c)".toList
      ∧ (accepts id { pattern := some " a.b*(c) ".toList, type := "keyword", enabled := none }
            "https://x.org/A.B*(C)?q".toList = true
          ↔ ∃ a m b, "https://x.org/A.B*(C)?q".toList = a ++ m ++ b
              ∧ EqIgnoreCase id m
                  (trimmedPattern
                    { pattern := some " a.b*(c) ".toList, type := "keyword", enabled := none })) :=
  ⟨by decide, by decide,
    (keyword_accepts_iff id
      { pattern := some " a.b*(c) ".toList, type := "keyword", enabled := none }
      "https://x.org/A.B*(C)?q".toList (by decide) (by decide)).2⟩

/-- C4 as stated fails: for the pattern `a*b` the text `http://a`, line feed, `b` has
the claimed shape with the gap a line feed, and the rule rejects it. -/
theorem domain_wildcard_counterexample :
    (domainRule "a*b").type = "domain"
      ∧ trimmedPattern (domainRule "a*b") = List.intercalate ['*'] ["a".toList, "b".toList]
      ∧ DomainForm id (SegForm id (fun _ => True) ["a".toList, "b".toList]) "http://a\nb".toList
      ∧ accepts id (domainRule "a*b") "http://a\nb".toList = false := by
  refine ⟨rfl, by decide, ?_, by decide⟩
  refine ⟨"http://".toList, [], "a\nb".toList, [], by decide, Or.inl (by decide), Or.inl rfl, ?_,
    Or.inl rfl⟩
  refine ⟨"a".toList, "\n".toList, "b".toList, by decide, by decide, trivial, ?_⟩
  show EqIgnoreCase id "b".toList "b".toList
  decide

/-- C4, amended: a domain rule whose trimmed pattern is `s0*s1*...*sk` (`k ≥ 1`, no
segment contains `*`) accepts a URL if and only if the URL is, ignoring letter case,
`http://` or `https://`, an optional part without `/` that ends in `.`, then
`s0 t1 s1 ... tk sk` for some texts `t1, ..., tk` that contain no line terminator, then
the end of the string or a `/` followed by anything; `*.example.com` accepts
`https://a.example.com/`. -/
theorem domain_wildcard_accepts_iff (up : Char → Char) :
    (∀ (rule : Rule) (segs : List Str) (u : Str), rule.type = "domain" → 2 ≤ segs.length →
        (∀ s ∈ segs, '*' ∉ s) → trimmedPattern rule = List.intercalate ['*'] segs →
        (∃ re, patternToRegex rule = some (some re))
          ∧ (accepts up rule u = true ↔ DomainForm up (SegForm up NoLineTerminator segs) u))
      ∧ accepts up (domainRule "*.example.com") "https://a.example.com/".toList = true := by
  refine ⟨?_, ?_⟩
  · intro rule segs u hd hlen hfree hp
    have hne : segs ≠ [] := by
      rintro rfl; simp at hlen
    have hp' : trimmedPattern rule ≠ [] := by
      rw [hp]
      match segs, hlen with
      | s :: s' :: rest, _ =>
        rw [intercalate_cons_cons]
        simp
    refine ⟨⟨_, patternToRegex_domain rule hd hp'⟩, ?_⟩
    rw [accepts_domain up rule u hd hp', hp]
    unfold DomainForm
    simp only [globMatch_segments up segs _ hne hfree]
  · exact accepts_ascii_eq up _ _
      (mkSeq (domainHeadTerms ++ "*.example.com".toList.map domainTerm ++ [domainTailTerm])) _
      (by decide) (by decide) (by decide) (by decide)

/-- Witness of C4: the rule `*.example.com` with the segments `""` and `.example.com`. -/
theorem domain_wildcard_accepts_iff_witness :
    (domainRule "*.example.com").type = "domain"
      ∧ 2 ≤ [[], ".example.com".toList].length
      ∧ (∀ s ∈ [[], ".example.com".toList], '*' ∉ s)
      ∧ trimmedPattern (domainRule "*.example.com")
          = List.intercalate ['*'] [[], ".example.com".toList]
      ∧ (accepts id (domainRule "*.example.com") "https://a.b.example.com/x".toList = true
          ↔ DomainForm id (SegForm id NoLineTerminator [[], ".example.com".toList])
              "https://a.b.example.com/x".toList) :=
  ⟨rfl, by decide, by decide, by decide,
    ((domain_wildcard_accepts_iff id).1 (domainRule "*.example.com")
      [[], ".example.com".toList] "https://a.b.example.com/x".toList rfl (by decide) (by decide)
      (by decide)).2⟩

/-! ## The host of an accepted URL -/

theorem canon_s_ne_colon (up : Char → Char) : Canonicalize up 's' ≠ Canonicalize up ':' := by
  intro h
  have := (canonicalize_eq_fixed up ':' 's' (by decide)).mp h
  exact absurd this (by decide)

theorem afterScheme_append (up : Char → Char) (s r : Str) (hs : IsScheme up s) :
    afterScheme up (s ++ r) = some r := by
  rcases hs with h | h
  · have hl : s.length = 7 := eqIgnoreCase_length h
    have h1 : (s ++ r).take 7 = s := by rw [← hl, List.take_left]
    have h2 : (s ++ r).drop 7 = r := by rw [← hl, List.drop_left]
    unfold afterScheme
    rw [h1, h2, if_pos h]
  · have hl : s.length = 8 := eqIgnoreCase_length h
    have h1 : (s ++ r).take 8 = s := by rw [← hl, List.take_left]
    have h2 : (s ++ r).drop 8 = r := by rw [← hl, List.drop_left]
    have h3 : ¬ EqIgnoreCase up ((s ++ r).take 7) "http://".toList := by
      intro e
      have e1 : (s ++ r).take 7 = s.take 7 := by
        rw [List.take_append_of_le_length (by omega)]
      rw [e1] at e
      unfold EqIgnoreCase at e h
      rw [List.map_take, h] at e
      have e2 : Canonicalize up 's' = Canonicalize up ':' := by
        have := congrArg (fun l => l.get? 4) e
        simpa using this
      exact canon_s_ne_colon up e2
    unfold afterScheme
    rw [if_neg h3, h1, h2, if_pos h]

theorem not_mem_of_eqIgnoreCase (up : Char → Char) (a : Char) (ha : a.toNat < 65)
    (m p : Str) (e : EqIgnoreCase up m p) (hp : a ∉ p) : a ∉ m := by
  intro hm
  have h1 : Canonicalize up a ∈ m.map (Canonicalize up) := List.mem_map_of_mem _ hm
  rw [e] at h1
  obtain ⟨c, hc, hcc⟩ := List.mem_map.mp h1
  rw [(canonicalize_eq_fixed up a c ha).mp hcc] at hc
  exact hp hc

theorem takeWhile_stop (f : Char → Bool) (body tail : Str) (hb : ∀ c ∈ body, f c = true)
    (ht : tail = [] ∨ ∃ t, tail = '/' :: t) (hf : f '/' = false) :
    (body ++ tail).takeWhile f = body := by
  rw [List.takeWhile_append_of_pos hb]
  rcases ht with rfl | ⟨t, rfl⟩
  · simp
  · simp [List.takeWhile, hf]

theorem authority_of_form (up : Char → Char) (s pre mid tail : Str) (hs : IsScheme up s)
    (hpre : '/' ∉ pre) (hmid : '/' ∉ mid) (ht : IsPathOrEnd tail) :
    authority up (s ++ pre ++ mid ++ tail) = some (pre ++ mid) := by
  have h : s ++ pre ++ mid ++ tail = s ++ ((pre ++ mid) ++ tail) := by simp
  rw [h, authority, afterScheme_append up s _ hs, Option.map_some']
  congr 1
  apply takeWhile_stop _ _ _ _ ht (by decide)
  intro c hc
  rcases List.mem_append.mp hc with hc | hc
  · have : c ≠ '/' := fun e => hpre (e ▸ hc)
    simpa using this
  · have : c ≠ '/' := fun e => hmid (e ▸ hc)
    simpa using this

theorem hostname_of_form (up : Char → Char) (s pre mid tail : Str) (hs : IsScheme up s)
    (hbody : ∀ c ∈ pre ++ mid, c ≠ '/' ∧ c ≠ '?' ∧ c ≠ '#') (ht : IsPathOrEnd tail) :
    hostname up (s ++ pre ++ mid ++ tail) = some (pre ++ mid) := by
  have h : s ++ pre ++ mid ++ tail = s ++ ((pre ++ mid) ++ tail) := by simp
  rw [h, hostname, afterScheme_append up s _ hs, Option.map_some']
  congr 1
  apply takeWhile_stop _ _ _ _ ht (by decide)
  intro c hc
  obtain ⟨h1, h2, h3⟩ := hbody c hc
  simp [h1, h2, h3]

theorem isLabels_no_slash {pre : Str} (h : IsLabels pre) : '/' ∉ pre := by
  rcases h with rfl | ⟨h, _⟩
  · simp
  · exact h

theorem hostUnder_of_form (up : Char → Char) (pre mid p : Str) (hpre : IsLabels pre)
    (e : EqIgnoreCase up mid p) : HostUnder up (pre ++ mid) p := by
  rcases hpre with rfl | ⟨_, q, rfl⟩
  · exact Or.inl e
  · right
    unfold EqIgnoreCase at e
    refine ⟨q.map (Canonicalize up), ?_⟩
    simp [e]

/-- C1 as stated fails: the rule `example.com` accepts `http://evil.org?.example.com`,
whose hostname is `evil.org`; the rule `a/b` accepts `http://a/b`, whose hostname is
`a`. -/
theorem domain_host_counterexample :
    (trimmedPattern (domainRule "example.com") = "example.com".toList
        ∧ accepts id (domainRule "example.com") "http://evil.org?.example.com".toList = true
        ∧ hostname id "http://evil.org?.example.com".toList = some "evil.org".toList
        ∧ ¬ HostUnder id "evil.org".toList "example.com".toList)
      ∧ (trimmedPattern (domainRule "a/b") = "a/b".toList
        ∧ accepts id (domainRule "a/b") "http://a/b".toList = true
        ∧ hostname id "http://a/b".toList = some "a".toList
        ∧ ¬ HostUnder id "a".toList "a/b".toList) := by
  decide

/-- C1, amended: for a domain rule whose trimmed pattern `p` is non-empty and contains
neither `*` nor `/`, and for a URL that the rule accepts and in which no `?` or `#`
occurs before the first `/` after the scheme, the hostname of the URL (the text after
`http://` or `https://` up to the first `/`, `?`, `#` or the end) is, ignoring letter
case, `p` or ends with `.` followed by `p`. -/
theorem domain_host_under_pattern (up : Char → Char) (rule : Rule) (u : Str)
    (hd : rule.type = "domain") (hp : trimmedPattern rule ≠ [])
    (hstar : '*' ∉ trimmedPattern rule) (hslash : '/' ∉ trimmedPattern rule)
    (hacc : accepts up rule u = true) (hq : queryBeforePath up u = false) :
    ∃ host, hostname up u = some host ∧ HostUnder up host (trimmedPattern rule) := by
  rw [accepts_domain up rule u hd hp] at hacc
  obtain ⟨s, pre, mid, tail, rfl, hs, hpre, hmid, ht⟩ := hacc
  rw [globMatch_literal up _ _ hstar] at hmid
  have hpre' := isLabels_no_slash hpre
  have hmid' : '/' ∉ mid :=
    not_mem_of_eqIgnoreCase up '/' (by decide) mid _ hmid hslash
  have hauth := authority_of_form up s pre mid tail hs hpre' hmid' ht
  have hbody : ∀ c ∈ pre ++ mid, c ≠ '/' ∧ c ≠ '?' ∧ c ≠ '#' := by
    intro c hc
    simp only [queryBeforePath, hauth, List.any_eq_false, Bool.or_eq_true, decide_eq_true_eq,
      not_or] at hq
    refine ⟨?_, (hq c hc).1, (hq c hc).2⟩
    rintro rfl
    rcases List.mem_append.mp hc with h | h
    · exact hpre' h
    · exact hmid' h
  exact ⟨pre ++ mid, hostname_of_form up s pre mid tail hs hbody ht,
    hostUnder_of_form up pre mid _ hpre hmid⟩

/-- Witness of C1: the rule `example.com` on `https://www.example.com/page?x#y`. -/
theorem domain_host_under_pattern_witness :
    (domainRule "example.com").type = "domain"
      ∧ trimmedPattern (domainRule "example.com") ≠ []
      ∧ '*' ∉ trimmedPattern (domainRule "example.com")
      ∧ '/' ∉ trimmedPattern (domainRule "example.com")
      ∧ accepts id (domainRule "example.com") "https://www.example.com/page?x#y".toList = true
      ∧ queryBeforePath id "https://www.example.com/page?x#y".toList = false
      ∧ ∃ host, hostname id "https://www.example.com/page?x#y".toList = some host
          ∧ HostUnder id host (trimmedPattern (domainRule "example.com")) :=
  ⟨rfl, by decide, by decide, by decide, by decide, by decide,
    domain_host_under_pattern id (domainRule "example.com")
      "https://www.example.com/page?x#y".toList rfl (by decide) (by decide) (by decide)
      (by decide) (by decide)⟩

/-! ## `getState`, `compileRulesFromStorage` and `urlMatches` -/

theorem getState_snd (f : Str → Option Str) (s : State) :
    (getState f s).2 = (getState f s).1 := by
  unfold getState
  split
  · split <;> rfl
  · rfl

theorem getState_rules (f : Str → Option Str) (s : State) : (getState f s).1.rules = s.rules := by
  unfold getState
  split
  · split <;> rfl
  · rfl

theorem getState_logs (f : Str → Option Str) (s : State) : (getState f s).1.logs = s.logs := by
  unfold getState
  split
  · split <;> rfl
  · rfl

theorem getState_deletedCount (f : Str → Option Str) (s : State) :
    (getState f s).1.counters.deletedCount = s.counters.deletedCount := by
  unfold getState
  split
  · split <;> rfl
  · rfl

theorem patternToRegex_eq (rule : Rule) : patternToRegex rule = some (compiledPattern rule) := by
  unfold compiledPattern
  by_cases hp : trimmedPattern rule = []
  · rw [if_pos hp, patternToRegex_blank rule hp]
  · rw [if_neg hp]
    by_cases hd : rule.type = "domain"
    · rw [if_pos hd, patternToRegex_domain rule hd hp]
    · rw [if_neg hd, patternToRegex_keyword rule hd hp]

theorem compiledPattern_isSome (rule : Rule) :
    (compiledPattern rule).isSome = decide (trimmedPattern rule ≠ []) := by
  unfold compiledPattern
  by_cases hp : trimmedPattern rule = []
  · simp [hp]
  · by_cases hd : rule.type = "domain" <;> simp [hp, hd]

theorem accepts_eq (up : Char → Char) (rule : Rule) (u : Str) :
    accepts up rule u = true ↔ ∃ re, compiledPattern rule = some re ∧ RegExp.test up re u = true := by
  unfold accepts
  rw [patternToRegex_eq]
  cases compiledPattern rule with
  | none => simp
  | some re => simp

theorem mapM_some {α β : Type} (g : α → β) (l : List α) :
    l.mapM (fun a => some (g a)) = some (l.map g) := by
  induction l with
  | nil => rfl
  | cons a l ih =>
    rw [List.mapM_cons, ih]
    rfl

theorem compileRules_eq (rules : List Rule) :
    compileRules rules
      = some ((rules.filter isEnabled).filterMap
          (fun r => (compiledPattern r).map (fun re => { rule := r, regex := re }))) := by
  unfold compileRules
  have h : (fun r => (patternToRegex r).map (fun re => (r, re)))
      = (fun r => some (r, compiledPattern r)) := by
    funext r; rw [patternToRegex_eq]; rfl
  rw [h, mapM_some]
  simp only [Option.map_some', List.filterMap_map]
  rfl

theorem compiled_rules_map (rules : List Rule) :
    ((rules.filter isEnabled).filterMap
        (fun r => (compiledPattern r).map (fun re => ({ rule := r, regex := re } : CompiledRule)))).map
          (fun c => c.rule)
      = rules.filter isActive := by
  induction rules with
  | nil => rfl
  | cons r rules ih =>
    by_cases he : isEnabled r = true
    · by_cases hp : trimmedPattern r = []
      · have hc : compiledPattern r = none := by simp [compiledPattern, hp]
        have ha : isActive r = false := by simp [isActive, hp]
        rw [List.filter_cons_of_pos he,
          List.filterMap_cons_none (by rw [hc]; rfl),
          List.filter_cons_of_neg (by simp [ha]), ih]
      · have hs := compiledPattern_isSome r
        obtain ⟨re, hre⟩ : ∃ re, compiledPattern r = some re := by
          rw [← Option.isSome_iff_exists, hs]; simpa using hp
        have ha : isActive r = true := by simp [isActive, he, hp]
        rw [List.filter_cons_of_pos he,
          List.filterMap_cons_some (b := { rule := r, regex := re }) (by rw [hre]; rfl),
          List.filter_cons_of_pos ha, List.map_cons, ih]
    · have ha : isActive r = false := by simp [isActive, he]
      rw [List.filter_cons_of_neg he, List.filter_cons_of_neg (by simp [ha]), ih]

theorem compileRulesFromStorage_eq (f : Str → Option Str) (w : World) :
    compileRulesFromStorage f w
      = some { store := (getState f w.store).1,
               compiledRules := (w.store.rules.filter isEnabled).filterMap
                 (fun r => (compiledPattern r).map (fun re => { rule := r, regex := re })) } := by
  unfold compileRulesFromStorage
  simp only [compileRules_eq, getState_rules, getState_snd, Option.map_some']

theorem urlMatches_compiled (up : Char → Char) (rules : List Rule) (u : Str) :
    urlMatches up ((rules.filter isEnabled).filterMap
        (fun r => (compiledPattern r).map (fun re => { rule := r, regex := re }))) u = true
      ↔ ∃ r ∈ rules, r.enabled ≠ some false ∧ trimmedPattern r ≠ [] ∧ accepts up r u = true := by
  unfold urlMatches
  rw [List.any_eq_true]
  simp only [List.mem_filterMap, List.mem_filter, Option.map_eq_some']
  constructor
  · rintro ⟨c, ⟨r, ⟨hr, he⟩, re, hre, rfl⟩, ht⟩
    refine ⟨r, hr, ?_, ?_, (accepts_eq up r u).mpr ⟨re, hre, ht⟩⟩
    · simpa [isEnabled] using he
    · have := compiledPattern_isSome r
      rw [hre] at this
      simpa using this.symm
  · rintro ⟨r, hr, he, _, ha⟩
    obtain ⟨re, hre, ht⟩ := (accepts_eq up r u).mp ha
    exact ⟨{ rule := r, regex := re }, ⟨r, ⟨hr, by simpa [isEnabled] using he⟩, re, hre, rfl⟩, ht⟩

/-! ## `trim` -/

theorem dropWhile_fixed_head (p : Char → Bool) (c : Char) (t : Str)
    (h : (c :: t).dropWhile p = c :: t) : p c = false := by
  have := List.dropWhile_eq_self_iff.mp h (by simp)
  simpa using this

theorem dropWhile_fixed_left (p : Char → Bool) (x r : Str) (h : (x ++ r).dropWhile p = x ++ r) :
    x.dropWhile p = x := by
  cases x with
  | nil => rfl
  | cons c t =>
    have hc := dropWhile_fixed_head p c (t ++ r) h
    simp [List.dropWhile_cons, hc]

theorem trim_trim (s : Str) : trim (trim s) = trim s := by
  unfold trim
  have hy : (s.dropWhile isTrimmed).dropWhile isTrimmed = s.dropWhile isTrimmed :=
    List.dropWhile_idempotent _ _
  have hsplit := List.takeWhile_append_dropWhile isTrimmed (s.dropWhile isTrimmed).reverse
  have hy' : s.dropWhile isTrimmed
      = ((s.dropWhile isTrimmed).reverse.dropWhile isTrimmed).reverse
        ++ ((s.dropWhile isTrimmed).reverse.takeWhile isTrimmed).reverse := by
    rw [← List.reverse_append, hsplit, List.reverse_reverse]
  have h1 : (((s.dropWhile isTrimmed).reverse.dropWhile isTrimmed).reverse).dropWhile isTrimmed
      = ((s.dropWhile isTrimmed).reverse.dropWhile isTrimmed).reverse := by
    apply dropWhile_fixed_left isTrimmed _
      ((s.dropWhile isTrimmed).reverse.takeWhile isTrimmed).reverse
    rw [← hy', hy]
  rw [h1, List.reverse_reverse, List.dropWhile_idempotent]

/-! ## The claims about the compiled set and the deletion pipeline -/

theorem testCom_regex :
    patternToRegex (domainRule "test.com")
      = some (some (mkSeq (domainHeadTerms ++ "test.com".toList.map domainTerm
          ++ [domainTailTerm]))) := by
  decide

/-- C5: `compileRulesFromStorage` never fails; afterwards `urlMatches(u)` is true if and
only if some persisted rule whose `enabled` is not `false` and whose trimmed pattern is
not empty has a matcher that accepts `u`; the compiled set consists of exactly those
rules, in persisted order, each with the pattern `patternToRegex` returns for it; an
empty set matches nothing; the rule `test.com` matches `https://sub.test.com/path?x=1`
and the same rule with `enabled: false` does not. -/
theorem compiled_set_matches_iff (up : Char → Char) (toISOString : Str → Option Str) :
    (∀ (w : World) (u : Str), ∃ w', compileRulesFromStorage toISOString w = some w'
        ∧ w'.compiledRules.map (fun c => c.rule) = w.store.rules.filter isActive
        ∧ (∀ c ∈ w'.compiledRules, patternToRegex c.rule = some (some c.regex))
        ∧ (urlMatches up w'.compiledRules u = true
            ↔ ∃ r ∈ w.store.rules, r.enabled ≠ some false ∧ trimmedPattern r ≠ []
                ∧ accepts up r u = true))
      ∧ (∀ u, urlMatches up [] u = false)
      ∧ (compileRulesFromStorage toISOString (worldOf [domainRule "test.com"])).map
          (fun w' => urlMatches up w'.compiledRules "https://sub.test.com/path?x=1".toList)
            = some true
      ∧ (compileRulesFromStorage toISOString
            (worldOf [{ domainRule "test.com" with enabled := some false }])).map
          (fun w' => urlMatches up w'.compiledRules "https://sub.test.com/path?x=1".toList)
            = some false := by
  refine ⟨?_, ?_, ?_, ?_⟩
  · intro w u
    refine ⟨_, compileRulesFromStorage_eq toISOString w, compiled_rules_map _, ?_,
      urlMatches_compiled up _ u⟩
    intro c hc
    simp only [List.mem_filterMap, Option.map_eq_some'] at hc
    obtain ⟨r, _, re, hre, rfl⟩ := hc
    rw [patternToRegex_eq, hre]
  · intro u; rfl
  · have h := (urlMatches_compiled up [domainRule "test.com"]
      "https://sub.test.com/path?x=1".toList).mpr
        ⟨domainRule "test.com", List.mem_singleton.mpr rfl, by decide, by decide,
          accepts_ascii_eq up _ _ _ _ testCom_regex (by decide) (by decide) (by decide)⟩
    rw [compileRulesFromStorage_eq, Option.map_some']
    simp only [worldOf]
    rw [h]
  · have h : urlMatches up ((List.filter isEnabled
        [{ domainRule "test.com" with enabled := some false }]).filterMap
          (fun r => (compiledPattern r).map (fun re => { rule := r, regex := re })))
        "https://sub.test.com/path?x=1".toList = false := by
      apply Bool.eq_false_iff.mpr
      intro h
      obtain ⟨r, hr, he, _⟩ := (urlMatches_compiled up _ _).mp h
      rw [List.mem_singleton.mp hr] at he
      exact he rfl
    rw [compileRulesFromStorage_eq, Option.map_some']
    simp only [worldOf]
    rw [h]

theorem getStateWith_ok (f : Str → Option Str) (s : State) :
    getStateWith f true true s = ((getState f s).2, .ok (getState f s).1) := by
  unfold getStateWith getState
  simp only [if_true]
  split
  · split <;> rfl
  · rfl

theorem getStateWith_store (f : Str → Option Str) (getOk setOk : Bool) (s : State) :
    (getStateWith f getOk setOk s).1.rules = s.rules
      ∧ (getStateWith f getOk setOk s).1.logs = s.logs
      ∧ (getStateWith f getOk setOk s).1.counters.deletedCount = s.counters.deletedCount := by
  unfold getStateWith
  cases getOk <;> cases setOk <;> simp <;> split <;> try split
  all_goals simp

theorem getStateWith_state (f : Str → Option Str) (setOk : Bool) (s : State) :
    ∃ st, (getStateWith f true setOk s).2 = .ok st ∧ st.rules = s.rules ∧ st.logs = s.logs
      ∧ st.counters.deletedCount = s.counters.deletedCount := by
  unfold getStateWith
  simp only [if_true]
  split
  · split
    · exact ⟨_, rfl, rfl, rfl, rfl⟩
    · exact ⟨_, rfl, rfl, rfl, rfl⟩
  · exact ⟨_, rfl, rfl, rfl, rfl⟩

theorem getStateWith_fail (f : Str → Option Str) (setOk : Bool) (s : State) :
    getStateWith f false setOk s = (s, .error .storageGet) := by
  simp [getStateWith]

theorem log2_two_pow_53 (m : Nat) (h1 : 2 ^ 53 ≤ m) (h2 : m < 2 ^ 54) : Nat.log2 m = 53 := by
  rw [Nat.log2_eq_log_two]
  exact Nat.log_eq_of_pow_le_of_lt_pow h1 h2

/-- Below `2 ^ 53` the increment of the count is exact. -/
theorem addOne_exact (n : Nat) (h : n < 2 ^ 53) : addOne n = n + 1 := by
  unfold addOne roundToDouble
  by_cases h1 : n + 1 < 2 ^ 53
  · rw [if_pos h1]
  · have h2 : n + 1 = 2 ^ 53 := by omega
    rw [if_neg h1, h2, log2_two_pow_53 (2 ^ 53) (Nat.le_refl _) (by norm_num)]
    norm_num

/-- At `2 ^ 53` the increment of the count is lost. -/
theorem addOne_two_pow_53 : addOne (2 ^ 53) = 2 ^ 53 := by
  unfold addOne roundToDouble
  rw [if_neg (by norm_num), log2_two_pow_53 (2 ^ 53 + 1) (by norm_num) (by norm_num)]
  norm_num

theorem deleteAndRecord_recorded (f : Str → Option Str) (host : HostCalls) (now : Int)
    (url : Str) (source : String) (store : State) (hd : host.deleteUrlOk = true)
    (hg : host.getOk = true) (hs : host.setOk = true) :
    (deleteAndRecord f host now url source store).2 = .ok ()
      ∧ (deleteAndRecord f host now url source store).1.counters.deletedCount
          = addOne store.counters.deletedCount
      ∧ (deleteAndRecord f host now url source store).1.logs
          = store.logs ++ [{ url := url, source := source, ts := now }]
      ∧ (deleteAndRecord f host now url source store).1.rules = store.rules := by
  obtain ⟨st, h1, h2, h3, h4⟩ := getStateWith_state f host.normalizeSetOk store
  obtain ⟨h5, _, _⟩ := getStateWith_store f true host.normalizeSetOk store
  unfold deleteAndRecord
  rw [hd, hg, hs]
  generalize getStateWith f true host.normalizeSetOk store = r at h1 h5
  obtain ⟨s1, e⟩ := r
  simp only at h1 h5
  subst h1
  simp [h3, h4, h5]

theorem deleteAndRecord_aborted (f : Str → Option Str) (host : HostCalls) (now : Int)
    (url : Str) (source : String) (store : State)
    (h : host.deleteUrlOk = false ∨ host.getOk = false ∨ host.setOk = false) :
    (∃ e, (deleteAndRecord f host now url source store).2 = .error e)
      ∧ (deleteAndRecord f host now url source store).1.counters.deletedCount
          = store.counters.deletedCount
      ∧ (deleteAndRecord f host now url source store).1.logs = store.logs
      ∧ (deleteAndRecord f host now url source store).1.rules = store.rules
      ∧ (host.deleteUrlOk = false ∨ host.getOk = false →
          (deleteAndRecord f host now url source store).1 = store) := by
  unfold deleteAndRecord
  by_cases hd : host.deleteUrlOk = true
  · rw [if_pos hd]
    by_cases hg : host.getOk = true
    · have hs : host.setOk = false := by
        rcases h with h | h | h
        · rw [hd] at h; exact absurd h (by decide)
        · rw [hg] at h; exact absurd h (by decide)
        · exact h
      obtain ⟨st, h1, _⟩ := getStateWith_state f host.normalizeSetOk store
      obtain ⟨h5, h6, h7⟩ := getStateWith_store f true host.normalizeSetOk store
      rw [hg, hs]
      generalize getStateWith f true host.normalizeSetOk store = r at h1 h5 h6 h7
      obtain ⟨s1, e⟩ := r
      simp only at h1 h5 h6 h7
      subst h1
      refine ⟨⟨_, rfl⟩, h7, h6, h5, ?_⟩
      rintro (h | h)
      · rw [hd] at h; exact absurd h (by decide)
      · exact absurd h (by decide)
    · have hg' : host.getOk = false := by simpa using hg
      rw [hg', getStateWith_fail]
      exact ⟨⟨_, rfl⟩, rfl, rfl, rfl, fun _ => rfl⟩
  · rw [if_neg hd]
    exact ⟨⟨_, rfl⟩, rfl, rfl, rfl, fun _ => rfl⟩

theorem deleteIfMatched_matched (up : Char → Char) (f : Str → Option Str) (host : HostCalls)
    (now : Int) (compiledRules : List CompiledRule) (url : Str) (source : String)
    (store : State) (h1 : url ≠ []) (h2 : compiledRules ≠ [])
    (h3 : urlMatches up compiledRules url = true) :
    (deleteIfMatched up f host now compiledRules url source store).store
        = (deleteAndRecord f host now url source store).1
      ∧ (deleteIfMatched up f host now compiledRules url source store).deleteCalls = [url]
      ∧ (deleteIfMatched up f host now compiledRules url source store).errorsLogged
          = (match (deleteAndRecord f host now url source store).2 with
              | .ok _ => 0
              | .error _ => 1) := by
  unfold deleteIfMatched
  rw [if_neg (by simp [h1, h2]), if_pos h3]
  generalize deleteAndRecord f host now url source store = r
  obtain ⟨s1, e⟩ := r
  cases e <;> exact ⟨rfl, rfl, rfl⟩

/-- C6 as stated fails: with a count of `2 ^ 53` a successful deletion leaves
`deletedCount` as it is, and when the final write of the store is rejected a
successful deletion is neither counted nor logged. -/
theorem deleteIfMatched_counterexample :
    "https://sub.test.com/path?x=1".toList ≠ [] ∧ testComCompiled ≠ []
      ∧ urlMatches id testComCompiled "https://sub.test.com/path?x=1".toList = true
      ∧ (deleteIfMatched id (fun _ => none)
            { deleteUrlOk := true, getOk := true, normalizeSetOk := true, setOk := true }
            1700000000000 testComCompiled "https://sub.test.com/path?x=1".toList
            "history.onVisited"
            { rules := [domainRule "test.com"],
              counters := { deletedCount := 2 ^ 53, lastReset := "2024-01-01".toList },
              logs := [] }).store.counters.deletedCount = 2 ^ 53
      ∧ (deleteIfMatched id (fun _ => none)
            { deleteUrlOk := true, getOk := true, normalizeSetOk := true, setOk := false }
            1700000000000 testComCompiled "https://sub.test.com/path?x=1".toList
            "history.onVisited" (worldOf [domainRule "test.com"]).store).store
          = (worldOf [domainRule "test.com"]).store := by
  refine ⟨by decide, by decide, by decide, ?_, by decide⟩
  rw [(deleteIfMatched_matched id _ _ _ _ _ _ _ (by decide) (by decide) (by decide)).1,
    (deleteAndRecord_recorded _ _ _ _ _ _ rfl rfl rfl).2.1]
  exact addOne_two_pow_53

/-- C6, amended: `deleteIfMatched` never throws; with an empty URL, an empty rule set
or no matcher that accepts the URL it issues no `deleteUrl` call and leaves the
persisted state as it is; when a matcher accepts the URL and `deleteUrl` fails, the
persisted state is unchanged; when `deleteUrl` succeeds and the read or the final
write of the store fails, `deletedCount`, logs and rules are unchanged; when
`deleteUrl`, the read and the final write succeed, `deletedCount` is its previous
value plus one in double precision, which is exactly one greater for a previous value
below `2 ^ 53`, the logs are the previous logs with the one entry `{url, source, ts}`
appended, and the rules are unchanged. -/
theorem deleteIfMatched_effects (up : Char → Char) (toISOString : Str → Option Str)
    (host : HostCalls) (now : Int) (compiledRules : List CompiledRule) (url : Str)
    (source : String) (store : State) :
    (deleteIfMatched up toISOString host now compiledRules url source store).uncaught = none
      ∧ ((url = [] ∨ compiledRules = [] ∨ urlMatches up compiledRules url = false) →
          (deleteIfMatched up toISOString host now compiledRules url source store).deleteCalls
              = []
            ∧ (deleteIfMatched up toISOString host now compiledRules url source store).store
              = store)
      ∧ (url ≠ [] → compiledRules ≠ [] → urlMatches up compiledRules url = true →
          host.deleteUrlOk = false →
          (deleteIfMatched up toISOString host now compiledRules url source store).deleteCalls
              = [url]
            ∧ (deleteIfMatched up toISOString host now compiledRules url source store).store
              = store)
      ∧ (url ≠ [] → compiledRules ≠ [] → urlMatches up compiledRules url = true →
          host.deleteUrlOk = true → (host.getOk = false ∨ host.setOk = false) →
          (deleteIfMatched up toISOString host now compiledRules url source store).deleteCalls
              = [url]
            ∧ (deleteIfMatched up toISOString host now compiledRules url source
                store).store.counters.deletedCount = store.counters.deletedCount
            ∧ (deleteIfMatched up toISOString host now compiledRules url source
                store).store.logs = store.logs
            ∧ (deleteIfMatched up toISOString host now compiledRules url source
                store).store.rules = store.rules)
      ∧ (url ≠ [] → compiledRules ≠ [] → urlMatches up compiledRules url = true →
          host.deleteUrlOk = true → host.getOk = true → host.setOk = true →
          (deleteIfMatched up toISOString host now compiledRules url source store).deleteCalls
              = [url]
            ∧ (deleteIfMatched up toISOString host now compiledRules url source
                store).store.counters.deletedCount = addOne store.counters.deletedCount
            ∧ (store.counters.deletedCount < 2 ^ 53 →
                (deleteIfMatched up toISOString host now compiledRules url source
                  store).store.counters.deletedCount = store.counters.deletedCount + 1)
            ∧ (deleteIfMatched up toISOString host now compiledRules url source
                store).store.logs = store.logs ++ [{ url := url, source := source, ts := now }]
            ∧ (deleteIfMatched up toISOString host now compiledRules url source
                store).store.rules = store.rules) := by
  refine ⟨?_, ?_, ?_, ?_, ?_⟩
  · unfold deleteIfMatched
    split
    · rfl
    · split
      · split <;> rfl
      · rfl
  · rintro (h | h | h)
    · simp [deleteIfMatched, h]
    · simp [deleteIfMatched, h]
    · unfold deleteIfMatched
      split
      · exact ⟨rfl, rfl⟩
      · simp [h]
  · intro h1 h2 h3 h4
    obtain ⟨hs, hc, _⟩ := deleteIfMatched_matched up toISOString host now compiledRules url
      source store h1 h2 h3
    obtain ⟨_, _, _, _, hall⟩ := deleteAndRecord_aborted toISOString host now url source store
      (Or.inl h4)
    exact ⟨hc, by rw [hs, hall (Or.inl h4)]⟩
  · intro h1 h2 h3 _ h5
    obtain ⟨hs, hc, _⟩ := deleteIfMatched_matched up toISOString host now compiledRules url
      source store h1 h2 h3
    obtain ⟨_, ha, hb, hr, _⟩ := deleteAndRecord_aborted toISOString host now url source store
      (Or.inr h5)
    rw [hs]
    exact ⟨hc, ha, hb, hr⟩
  · intro h1 h2 h3 h4 h5 h6
    obtain ⟨hs, hc, _⟩ := deleteIfMatched_matched up toISOString host now compiledRules url
      source store h1 h2 h3
    obtain ⟨_, ha, hb, hr⟩ := deleteAndRecord_recorded toISOString host now url source store
      h4 h5 h6
    rw [hs]
    exact ⟨hc, ha, fun hlt => by rw [ha, addOne_exact _ hlt], hb, hr⟩

/-- Witness of C6: the rule `test.com` and the visit of `https://sub.test.com/path?x=1`,
with every host call successful, with a failed `deleteUrl`, with a failed final
write, and an empty URL. -/
theorem deleteIfMatched_effects_witness :
    ("https://sub.test.com/path?x=1".toList ≠ [] ∧ testComCompiled ≠ []
        ∧ urlMatches id testComCompiled "https://sub.test.com/path?x=1".toList = true
        ∧ (worldOf [domainRule "test.com"]).store.counters.deletedCount < 2 ^ 53
        ∧ (deleteIfMatched id (fun _ => none)
              { deleteUrlOk := true, getOk := true, normalizeSetOk := true, setOk := true }
              1700000000000 testComCompiled "https://sub.test.com/path?x=1".toList
              "history.onVisited"
              (worldOf [domainRule "test.com"]).store).store.counters.deletedCount = 0 + 1)
      ∧ (deleteIfMatched id (fun _ => none)
            { deleteUrlOk := false, getOk := true, normalizeSetOk := true, setOk := true }
            1700000000000 testComCompiled "https://sub.test.com/path?x=1".toList
            "history.onVisited" (worldOf [domainRule "test.com"]).store).store
          = (worldOf [domainRule "test.com"]).store
      ∧ (deleteIfMatched id (fun _ => none)
            { deleteUrlOk := true, getOk := true, normalizeSetOk := true, setOk := false }
            1700000000000 testComCompiled "https://sub.test.com/path?x=1".toList
            "history.onVisited" (worldOf [domainRule "test.com"]).store).store.logs
          = (worldOf [domainRule "test.com"]).store.logs
      ∧ (deleteIfMatched id (fun _ => none)
            { deleteUrlOk := true, getOk := true, normalizeSetOk := true, setOk := true }
            1700000000000 testComCompiled [] "history.onVisited"
            (worldOf [domainRule "test.com"]).store).deleteCalls = [] :=
  ⟨⟨by decide, by decide, by decide, by decide,
      ((deleteIfMatched_effects id (fun _ => none)
        { deleteUrlOk := true, getOk := true, normalizeSetOk := true, setOk := true }
        1700000000000 testComCompiled "https://sub.test.com/path?x=1".toList "history.onVisited"
        (worldOf [domainRule "test.com"]).store).2.2.2.2
          (by decide) (by decide) (by decide) rfl rfl rfl).2.2.1 (by decide)⟩,
    ((deleteIfMatched_effects id (fun _ => none)
        { deleteUrlOk := false, getOk := true, normalizeSetOk := true, setOk := true }
        1700000000000 testComCompiled "https://sub.test.com/path?x=1".toList "history.onVisited"
        (worldOf [domainRule "test.com"]).store).2.2.1
          (by decide) (by decide) (by decide) rfl).2,
    ((deleteIfMatched_effects id (fun _ => none)
        { deleteUrlOk := true, getOk := true, normalizeSetOk := true, setOk := false }
        1700000000000 testComCompiled "https://sub.test.com/path?x=1".toList "history.onVisited"
        (worldOf [domainRule "test.com"]).store).2.2.2.1
          (by decide) (by decide) (by decide) rfl (Or.inr rfl)).2.2.1,
    ((deleteIfMatched_effects id (fun _ => none)
        { deleteUrlOk := true, getOk := true, normalizeSetOk := true, setOk := true }
        1700000000000 testComCompiled [] "history.onVisited"
        (worldOf [domainRule "test.com"]).store).2.1 (Or.inl rfl)).1⟩

/-! ## The claims about the message commands -/

/-- C7 as stated fails: an entry stamped after `now` is counted by `last30Count` and
lies outside the interval from `now - W` to `now`. -/
theorem last30Count_counterexample :
    (onMessage (clockAt 1000) .getState
        { store := { rules := [], counters := { deletedCount := 1, lastReset := [] },
                     logs := [entryAt 2000] },
          compiledRules := [] }).2
      = some (.state { rules := [], counters := { deletedCount := 1, lastReset := [] },
                       logs := [entryAt 2000] } 1)
    ∧ [entryAt 2000].countP (fun e => decide (1000 - window30 ≤ e.ts ∧ e.ts ≤ 1000)) = 0 := by
  decide

/-- C7, amended: the `last30Count` of the `getState` command is the number of log
entries `e` with `now - W ≤ e.ts` for the window `W` of thirty days; an entry with `ts`
exactly `now - W` is counted, and when no entry is stamped after `now` the count is the
number of entries with `now - W ≤ e.ts ≤ now`. -/
theorem last30Count_counts_from_cutoff (clock : Clock) (w : World) :
    (onMessage clock .getState w).2
        = some (.state (getState clock.toISOString w.store).1
            (w.store.logs.countP (fun e => decide (clock.now - window30 ≤ e.ts))))
      ∧ window30 = 30 * 24 * 60 * 60 * 1000
      ∧ (∀ e : LogEntry, e ∈ w.store.logs → e.ts = clock.now - window30 →
          0 < w.store.logs.countP (fun e => decide (clock.now - window30 ≤ e.ts)))
      ∧ ((∀ e ∈ w.store.logs, e.ts ≤ clock.now) →
          w.store.logs.countP (fun e => decide (clock.now - window30 ≤ e.ts))
            = w.store.logs.countP
                (fun e => decide (clock.now - window30 ≤ e.ts ∧ e.ts ≤ clock.now))) := by
  refine ⟨?_, rfl, ?_, ?_⟩
  · simp only [onMessage, last30Count, getState_logs, List.countP_eq_length_filter]
  · intro e he hts
    rw [List.countP_pos_iff]
    exact ⟨e, he, by simp [hts]⟩
  · intro h
    apply List.countP_congr
    intro e he
    simp [h e he]

/-- Witness of C7: three entries, one older than the window, one on its boundary,
one inside it. -/
theorem last30Count_counts_from_cutoff_witness :
    (∀ e ∈ [entryAt 0, entryAt (1700000000000 - window30), entryAt 1699999999999],
        e.ts ≤ (clockAt 1700000000000).now)
      ∧ [entryAt 0, entryAt (1700000000000 - window30), entryAt 1699999999999].countP
            (fun e => decide ((clockAt 1700000000000).now - window30 ≤ e.ts))
          = [entryAt 0, entryAt (1700000000000 - window30), entryAt 1699999999999].countP
              (fun e => decide ((clockAt 1700000000000).now - window30 ≤ e.ts
                ∧ e.ts ≤ (clockAt 1700000000000).now)) :=
  ⟨by decide,
    (last30Count_counts_from_cutoff (clockAt 1700000000000)
      { store := { rules := [], counters := { deletedCount := 2, lastReset := [] },
                   logs := [entryAt 0, entryAt (1700000000000 - window30),
                     entryAt 1699999999999] },
        compiledRules := [] }).2.2.2 (by decide)⟩

theorem onMessage_addRule (clock : Clock) (pattern : Option Str) (matchType : String)
    (w : World) :
    (onMessage clock (.addRule pattern matchType) w).1.store.rules
        = w.store.rules ++ [addedRule pattern matchType]
      ∧ (onMessage clock (.addRule pattern matchType) w).2 = some .ok := by
  simp only [onMessage, compileRulesFromStorage_eq, getState_rules, getState_snd, rulesAfter,
    addedRule, and_self]

theorem onMessage_removeRule (clock : Clock) (index : Index) (w : World) :
    (onMessage clock (.removeRule index) w).1.store.rules
        = rulesAfter (.removeRule index) w.store.rules
      ∧ (onMessage clock (.removeRule index) w).2 = some .ok := by
  simp only [onMessage, getState_rules, getState_snd, rulesAfter]
  cases h : ruleAt index w.store.rules with
  | none => simp [getState_rules]
  | some i => simp [compileRulesFromStorage_eq, getState_rules]

theorem onMessage_toggleRule (clock : Clock) (index : Index) (w : World) :
    (onMessage clock (.toggleRule index) w).1.store.rules
        = rulesAfter (.toggleRule index) w.store.rules
      ∧ (onMessage clock (.toggleRule index) w).2 = some .ok := by
  simp only [onMessage, getState_rules, getState_snd, rulesAfter]
  cases h : ruleAt index w.store.rules with
  | none => simp [getState_rules]
  | some i => simp [compileRulesFromStorage_eq, getState_rules]

theorem ruleAt_nat (i : Nat) (rules : List Rule) (h : i < rules.length) :
    ruleAt (.int i) rules = some i := by
  simp [ruleAt, h]

theorem ruleAt_out (i : Int) (rules : List Rule) (h : i < 0 ∨ (rules.length : Int) ≤ i) :
    ruleAt (.int i) rules = none := by
  unfold ruleAt
  simp only [ite_eq_right_iff, reduceCtorEq, imp_false, not_and, not_lt]
  intro h0
  omega

/-- C8 as stated fails: the `addRule` command with a pattern of two blanks appends a
rule, whose trimmed pattern is empty. -/
theorem addRule_blank_counterexample :
    trim "  ".toList = []
      ∧ (onMessage (clockAt 0) (.addRule (some "  ".toList) "domain") (worldOf [])).1.store.rules
          = [{ pattern := some "  ".toList, type := "domain", enabled := some true }]
      ∧ trimmedPattern { pattern := some "  ".toList, type := "domain", enabled := some true }
          = [] := by
  decide

/-- C8, amended: the add form leaves the rule list unchanged, and sends no command,
when its input is empty after trimming; otherwise it sends the trimmed input and the
`addRule` command appends exactly one rule at the end, with `enabled = true`, type
`domain` when the requested match type is `domain` and `keyword` otherwise, all earlier
rules unchanged and in the same order, so every rule created through the form has a
non-empty trimmed pattern. The `addRule` command itself appends such a rule for every
pattern it is sent, a duplicate included. -/
theorem addRule_appends (clock : Clock) (w : World) (matchType : String) :
    (∀ value : Str, trim value = [] → addFormSubmit clock value matchType w = (w, none))
      ∧ (∀ value : Str, trim value ≠ [] →
          (addFormSubmit clock value matchType w).1.store.rules
              = w.store.rules ++ [addedRule (some (trim value)) matchType]
            ∧ (addFormSubmit clock value matchType w).2 = some .ok
            ∧ trimmedPattern (addedRule (some (trim value)) matchType) ≠ [])
      ∧ (∀ pattern : Option Str,
          (onMessage clock (.addRule pattern matchType) w).1.store.rules
              = w.store.rules ++ [addedRule pattern matchType]
            ∧ (onMessage clock (.addRule pattern matchType) w).2 = some .ok)
      ∧ (∀ pattern : Option Str, (addedRule pattern matchType).enabled = some true
          ∧ (addedRule pattern matchType).pattern = pattern
          ∧ (matchType = "domain" → (addedRule pattern matchType).type = "domain")
          ∧ (matchType ≠ "domain" → (addedRule pattern matchType).type = "keyword")) := by
  refine ⟨?_, ?_, ?_, ?_⟩
  · intro value h
    simp [addFormSubmit, h]
  · intro value h
    have h1 := onMessage_addRule clock (some (trim value)) matchType w
    refine ⟨?_, ?_, ?_⟩
    · simp only [addFormSubmit, h, if_false]; exact h1.1
    · simp only [addFormSubmit, h, if_false]; exact h1.2
    · show trim (trim value) ≠ []
      rw [trim_trim]; exact h
  · intro pattern
    exact onMessage_addRule clock pattern matchType w
  · intro pattern
    refine ⟨rfl, rfl, ?_, ?_⟩
    · intro h; simp [addedRule, h]
    · intro h; simp [addedRule, h]

/-- Witness of C8: the form with a blank input, and with the input ` example.com `. -/
theorem addRule_appends_witness :
    (trim " \t".toList = []
        ∧ addFormSubmit (clockAt 0) " \t".toList "domain" (worldOf [domainRule "test.com"])
            = (worldOf [domainRule "test.com"], none))
      ∧ (trim " example.com ".toList ≠ []
        ∧ (addFormSubmit (clockAt 0) " example.com ".toList "domain"
              (worldOf [domainRule "test.com"])).1.store.rules
            = (worldOf [domainRule "test.com"]).store.rules
                ++ [addedRule (some (trim " example.com ".toList)) "domain"]) :=
  ⟨⟨by decide,
      (addRule_appends (clockAt 0) (worldOf [domainRule "test.com"]) "domain").1 " \t".toList
        (by decide)⟩,
    ⟨by decide,
      ((addRule_appends (clockAt 0) (worldOf [domainRule "test.com"]) "domain").2.1
        " example.com ".toList (by decide)).1⟩⟩

/-- C9 fails on the code: a rule without an `enabled` field counts as enabled, and the
`toggleRule` command sets its field to `true`, so it still counts as enabled. -/
theorem toggleRule_absent_field_stays_enabled :
    isEnabled legacyRule = true
      ∧ (onMessage (clockAt 0) (.toggleRule (.int 0)) (worldOf [legacyRule])).1.store.rules
          = [{ legacyRule with enabled := some true }]
      ∧ isEnabled { legacyRule with enabled := some true } = true
      ∧ urlMatches id
          (onMessage (clockAt 0) (.toggleRule (.int 0)) (worldOf [legacyRule])).1.compiledRules
          "https://sub.test.com/path?x=1".toList = true := by
  decide

/-- The part of the toggle that holds: the list keeps its length, the rule at a valid
index keeps pattern and type and gets the negation of its `enabled` field read as a
truth value, the other rules are unchanged, and an index out of bounds changes
nothing. -/
theorem toggleRule_frame (rules : List Rule) :
    (∀ i : Nat, i < rules.length →
        (rulesAfter (.toggleRule (.int i)) rules).length = rules.length
          ∧ (∀ j : Nat, j ≠ i → (rulesAfter (.toggleRule (.int i)) rules)[j]? = rules[j]?)
          ∧ (rulesAfter (.toggleRule (.int i)) rules)[i]? = rules[i]?.map toggleEnabled)
      ∧ (∀ i : Int, (i < 0 ∨ (rules.length : Int) ≤ i) →
          rulesAfter (.toggleRule (.int i)) rules = rules)
      ∧ rulesAfter (.toggleRule .other) rules = rules
      ∧ (∀ r : Rule, ∀ b : Bool, r.enabled = some b →
          isEnabled (toggleEnabled r) = !isEnabled r) := by
  refine ⟨?_, ?_, ?_, ?_⟩
  · intro i hi
    simp only [rulesAfter, ruleAt_nat i rules hi]
    refine ⟨List.length_modify _ _ _, ?_, ?_⟩
    · intro j hj
      rw [List.getElem?_modify]
      cases rules[j]? with
      | none => rfl
      | some r => simp [Ne.symm hj]
    · rw [List.getElem?_modify]
      cases rules[i]? with
      | none => rfl
      | some r => simp
  · intro i hi
    simp only [rulesAfter, ruleAt_out i rules hi]
  · rfl
  · intro r b hb
    cases b <;> simp [isEnabled, toggleEnabled, hb]

/-- C10: the `removeRule` command with an index `i` inside the bounds of a list of `n`
rules produces the list of `n - 1` rules whose element `j` is the old element `j` for
`j < i` and the old element `j + 1` for `j ≥ i`; with an index out of bounds (negative,
`≥ n`, or no integer) the list is unchanged; the command answers `ok` in every case;
removing index 2 from five rules moves the rules at 3, 4 to 2, 3 and leaves 0, 1. -/
theorem removeRule_shifts (clock : Clock) (w : World) :
    (∀ index : Index, (onMessage clock (.removeRule index) w).2 = some .ok)
      ∧ (∀ i : Nat, i < w.store.rules.length →
          ((onMessage clock (.removeRule (.int i)) w).1.store.rules).length
              = w.store.rules.length - 1
            ∧ ∀ j : Nat, ((onMessage clock (.removeRule (.int i)) w).1.store.rules)[j]?
                = if j < i then w.store.rules[j]? else w.store.rules[j + 1]?)
      ∧ (∀ i : Int, (i < 0 ∨ (w.store.rules.length : Int) ≤ i) →
          (onMessage clock (.removeRule (.int i)) w).1.store.rules = w.store.rules)
      ∧ (onMessage clock (.removeRule .other) w).1.store.rules = w.store.rules
      ∧ (∀ (r0 r1 r2 r3 r4 : Rule) (counters : Counters) (logs : List LogEntry)
            (compiled : List CompiledRule),
          (onMessage clock (.removeRule (.int 2))
              { store := { rules := [r0, r1, r2, r3, r4], counters := counters, logs := logs },
                compiledRules := compiled }).1.store.rules = [r0, r1, r3, r4]) := by
  refine ⟨?_, ?_, ?_, ?_, ?_⟩
  · intro index
    exact (onMessage_removeRule clock index w).2
  · intro i hi
    rw [(onMessage_removeRule clock (.int i) w).1]
    simp only [rulesAfter, ruleAt_nat i _ hi]
    refine ⟨?_, ?_⟩
    · rw [List.length_eraseIdx, if_pos hi]
    · intro j
      exact List.getElem?_eraseIdx _ _ _
  · intro i hi
    rw [(onMessage_removeRule clock (.int i) w).1]
    simp only [rulesAfter, ruleAt_out i _ hi]
  · rw [(onMessage_removeRule clock .other w).1]
    rfl
  · intro r0 r1 r2 r3 r4 counters logs compiled
    rw [(onMessage_removeRule clock (.int 2) _).1]
    rfl

/-- Witness of C10: index 1 of three rules, and the indices 3 and -1. -/
theorem removeRule_shifts_witness :
    (1 < (worldOf [domainRule "a.com", domainRule "b.com", domainRule "c.com"]).store.rules.length
        ∧ (onMessage (clockAt 0) (.removeRule (.int (1 : Nat)))
              (worldOf [domainRule "a.com", domainRule "b.com", domainRule "c.com"])).1.store.rules.length
            = 3 - 1)
      ∧ (((3 : Int) < 0 ∨ ((worldOf [domainRule "a.com", domainRule "b.com",
              domainRule "c.com"]).store.rules.length : Int) ≤ 3)
        ∧ (onMessage (clockAt 0) (.removeRule (.int 3))
              (worldOf [domainRule "a.com", domainRule "b.com", domainRule "c.com"])).1.store.rules
            = [domainRule "a.com", domainRule "b.com", domainRule "c.com"]) :=
  ⟨⟨by decide,
      ((removeRule_shifts (clockAt 0)
        (worldOf [domainRule "a.com", domainRule "b.com", domainRule "c.com"])).2.1 1
          (by decide)).1⟩,
    ⟨by decide,
      (removeRule_shifts (clockAt 0)
        (worldOf [domainRule "a.com", domainRule "b.com", domainRule "c.com"])).2.2.1 3
          (by decide)⟩⟩

end EdgeHistorySanitizer
